import Mathlib

/-!
Verification development for the `mcp-memory-server` repository.

The storage engine (`internal/memory/store.go`), the at-rest codec pipeline
(`pkg/crypto/crypto.go` together with `saveMemoryToFile`/`loadIndex`), and the
keyword extractor (`pkg/keywords/extractor.go`) are shallowly embedded below.

Modelling conventions, uniform across the file:
* Go strings are modelled as `List Char` (`Str`); `len` counts characters.
* Go `time.Time` values are modelled as natural-number instants; `time.Now()`
  becomes an explicit `now : Nat` argument of each operation.
* The Go map `map[string]*Memory` is modelled as an association list with
  insert-or-replace semantics.  Mutation through a shared pointer (the same
  `*Memory` is reachable under its versioned id and under the base alias) is
  modelled by updating every entry whose stored `id` equals the mutated
  record's `id`, which coincides with pointer aliasing in every reachable
  state.
* `sha256` based id generation (`generateID`) and the byte length of the
  encoded record file are abstracted as parameters `genID` / `encSize` of the
  model; no claim in scope depends on properties of SHA-256 itself.
* float64 relevance scores (`0.1`-multiples summed in `calculateRelevanceScore`)
  are modelled as natural numbers scaled by ten; float64 keyword scores are
  modelled as rationals.
-/

set_option maxHeartbeats 1000000
set_option synthInstance.maxHeartbeats 1000000

namespace MemModel

/-- Characters lists standing for Go strings. -/
abbrev Str := List Char

/-- Embed a Lean string literal as a model string. -/
def str (s : String) : Str := s.data

/-- The ASCII upper-case alphabet, paired with the lower-case alphabet. -/
def upperLowerTable : List (Char × Char) :=
  (str "ABCDEFGHIJKLMNOPQRSTUVWXYZ").zip (str "abcdefghijklmnopqrstuvwxyz")

/-- ASCII lower-casing of one character, the fragment of `strings.ToLower`
exercised by the repository's inputs (non-ASCII characters are kept as-is). -/
def lowerChar (c : Char) : Char :=
  match upperLowerTable.find? (fun p => p.1 = c) with
  | some p => p.2
  | none => c

/-- Model of `strings.ToLower`. -/
def toLowerStr (s : Str) : Str := s.map lowerChar

/-- An ASCII upper-case letter. -/
def isUpper (c : Char) : Bool := (str "ABCDEFGHIJKLMNOPQRSTUVWXYZ").contains c

theorem lowerChar_not_upper (c : Char) : isUpper (lowerChar c) = false := by
  unfold lowerChar
  cases hfind : upperLowerTable.find? (fun p => p.1 = c) with
  | some p =>
    have hmem := List.mem_of_find?_eq_some hfind
    have hall : ∀ q ∈ upperLowerTable, isUpper q.2 = false := by decide
    exact hall p hmem
  | none =>
    by_contra hne
    rw [Bool.not_eq_false] at hne
    unfold isUpper at hne
    have hc : c ∈ str "ABCDEFGHIJKLMNOPQRSTUVWXYZ" := by
      simpa [List.contains] using hne
    have hfst : upperLowerTable.map Prod.fst = str "ABCDEFGHIJKLMNOPQRSTUVWXYZ" := by
      decide
    rw [← hfst] at hc
    obtain ⟨q, hq, hq1⟩ := List.mem_map.mp hc
    have := List.find?_eq_none.mp hfind q hq
    simp [hq1] at this

theorem toLowerStr_no_upper (s : Str) (c : Char) (hc : c ∈ toLowerStr s) :
    isUpper c = false := by
  unfold toLowerStr at hc
  obtain ⟨a, _, rfl⟩ := List.mem_map.mp hc
  exact lowerChar_not_upper a

/-! ### Decimal rendering of version numbers (`fmt.Sprintf("%d", n)`). -/

/-- The decimal digit character for `n % 10`. -/
def digitChar (n : Nat) : Char := Char.ofNat (48 + n % 10)

/-- Decimal rendering with explicit fuel (kept structural so that the kernel
can evaluate it); fuel `n + 1` always suffices. -/
def natStrAux : Nat → Nat → Str
  | 0, _ => []
  | fuel + 1, n =>
    if n < 10 then [digitChar n] else natStrAux fuel (n / 10) ++ [digitChar (n % 10)]

/-- Decimal rendering of a natural number (`fmt.Sprintf("%d", n)`). -/
def natStr (n : Nat) : Str := natStrAux (n + 1) n

theorem natStrAux_irrel (fuel fuel2 n : Nat) (h : n < fuel) (h2 : n < fuel2) :
    natStrAux fuel n = natStrAux fuel2 n := by
  induction fuel generalizing fuel2 n with
  | zero => omega
  | succ f ih =>
    cases fuel2 with
    | zero => omega
    | succ f2 =>
      unfold natStrAux
      by_cases h10 : n < 10
      · rw [if_pos h10, if_pos h10]
      · rw [if_neg h10, if_neg h10, ih f2 (n / 10) (by omega) (by omega)]

theorem natStr_ne_nil (n : Nat) : natStr n ≠ [] := by
  unfold natStr natStrAux
  split <;> simp

theorem digitChar_mem_digits (n : Nat) :
    digitChar n ∈ str "0123456789" := by
  unfold digitChar
  have h : n % 10 < 10 := Nat.mod_lt _ (by omega)
  set k := n % 10 with hk
  interval_cases k <;> decide

theorem natStrAux_digits (fuel : Nat) :
    ∀ n, ∀ c ∈ natStrAux fuel n, c ∈ str "0123456789" := by
  induction fuel with
  | zero =>
    intro n c hc
    exact absurd hc (List.not_mem_nil c)
  | succ f ih =>
    intro n c hc
    unfold natStrAux at hc
    split at hc
    · simp at hc
      subst hc
      exact digitChar_mem_digits n
    · rcases List.mem_append.mp hc with h1 | h1
      · exact ih (n / 10) c h1
      · simp at h1
        subst h1
        exact digitChar_mem_digits (n % 10)

theorem natStr_digits (n : Nat) : ∀ c ∈ natStr n, c ∈ str "0123456789" :=
  natStrAux_digits (n + 1) n

theorem digit_ne_dash {c : Char} (h : c ∈ str "0123456789") : c ≠ '-' := by
  simp [str] at h
  rcases h with h | h | h | h | h | h | h | h | h | h <;> subst h <;> decide

theorem natStr_no_dash (n : Nat) : '-' ∉ natStr n := by
  intro h
  exact digit_ne_dash (natStr_digits n '-' h) rfl

theorem digitChar_toNat (n : Nat) : (digitChar n).toNat = 48 + n % 10 := by
  unfold digitChar
  have h : n % 10 < 10 := Nat.mod_lt _ (by omega)
  set k := n % 10 with hk
  interval_cases k <;> decide

/-- Decimal parsing, inverse to `natStr`. -/
def strToNat (s : Str) : Nat := s.foldl (fun acc c => acc * 10 + (c.toNat - 48)) 0

theorem strToNat_append_digit (l : Str) (c : Char) :
    strToNat (l ++ [c]) = strToNat l * 10 + (c.toNat - 48) := by
  unfold strToNat
  rw [List.foldl_append]
  rfl

theorem strToNat_natStrAux (fuel : Nat) :
    ∀ n, n < fuel → strToNat (natStrAux fuel n) = n := by
  induction fuel with
  | zero =>
    intro n h
    omega
  | succ f ih =>
    intro n h
    unfold natStrAux
    by_cases h10 : n < 10
    · rw [if_pos h10]
      show strToNat [digitChar n] = n
      unfold strToNat
      simp [digitChar_toNat n, Nat.mod_eq_of_lt h10]
    · rw [if_neg h10, strToNat_append_digit, ih (n / 10) (by omega), digitChar_toNat]
      omega

theorem strToNat_natStr (n : Nat) : strToNat (natStr n) = n :=
  strToNat_natStrAux (n + 1) n (by omega)

theorem natStr_injective : Function.Injective natStr := by
  intro a b h
  have := strToNat_natStr a
  rw [h, strToNat_natStr] at this
  omega

/-! ### The `"-v"` version separator (`strings.Contains(id, "-v")`,
`strings.LastIndex(id, "-v")`). -/

/-- Model of `strings.Contains(s, "-v")`. -/
def hasVs : Str → Bool
  | [] => false
  | [_] => false
  | a :: b :: rest => (a = '-' && b = 'v') || hasVs (b :: rest)

/-- The prefix of `s` before the last occurrence of `"-v"`, if any. -/
def stripVsAux : Str → Option Str
  | [] => none
  | c :: rest =>
    match stripVsAux rest with
    | some p => some (c :: p)
    | none => if c = '-' ∧ rest.head? = some 'v' then some [] else none

/-- Model of trimming a trailing version suffix:
`if idx := strings.LastIndex(id, "-v"); idx != -1 { id = id[:idx] }`. -/
def stripVs (s : Str) : Str := (stripVsAux s).getD s

theorem hasVs_of_no_dash (s : Str) (h : '-' ∉ s) : hasVs s = false := by
  induction s with
  | nil => rfl
  | cons a rest ih =>
    cases rest with
    | nil => rfl
    | cons b r2 =>
      show ((a = '-' && b = 'v') || hasVs (b :: r2)) = false
      have ha : a ≠ '-' := fun hc => h (hc ▸ List.mem_cons_self a _)
      have hrest : '-' ∉ b :: r2 := fun hc => h (List.mem_cons_of_mem a hc)
      rw [ih hrest]
      simp [ha]

theorem stripVsAux_none_of_no_dash (s : Str) (h : '-' ∉ s) :
    stripVsAux s = none := by
  induction s with
  | nil => rfl
  | cons c rest ih =>
    have hc : c ≠ '-' := fun hc => h (hc ▸ List.mem_cons_self c _)
    have hrest : '-' ∉ rest := fun hr => h (List.mem_cons_of_mem c hr)
    unfold stripVsAux
    rw [ih hrest]
    simp [hc]

theorem stripVsAux_append (b d : Str) (hd : '-' ∉ d) :
    stripVsAux (b ++ '-' :: 'v' :: d) = some b := by
  induction b with
  | nil =>
    unfold stripVsAux
    have hvd : '-' ∉ ('v' :: d) := by
      intro h
      rcases List.mem_cons.mp h with h | h
      · exact absurd h.symm (by decide)
      · exact hd h
    rw [List.nil_append]
    show (match stripVsAux ('v' :: d) with
      | some p => some ('-' :: p)
      | none => if '-' = '-' ∧ ('v' :: d).head? = some 'v' then some [] else none) = some []
    rw [stripVsAux_none_of_no_dash _ hvd]
    simp
  | cons x b2 ih =>
    show (match stripVsAux (b2 ++ '-' :: 'v' :: d) with
      | some p => some (x :: p)
      | none => _) = some (x :: b2)
    rw [ih]

theorem stripVs_append (b d : Str) (hd : '-' ∉ d) :
    stripVs (b ++ '-' :: 'v' :: d) = b := by
  unfold stripVs
  rw [stripVsAux_append b d hd]
  rfl

theorem hasVs_cons {c : Char} {s : Str} (h : hasVs s = true) :
    hasVs (c :: s) = true := by
  cases s with
  | nil => exact absurd h (by simp [hasVs])
  | cons b r =>
    unfold hasVs
    rw [h]
    simp

theorem hasVs_append (b d : Str) : hasVs (b ++ '-' :: 'v' :: d) = true := by
  induction b with
  | nil => simp [hasVs]
  | cons x b2 ih => exact hasVs_cons ih

theorem stripVs_of_no_vs (s : Str) (h : hasVs s = false) : stripVs s = s := by
  unfold stripVs
  cases haux : stripVsAux s with
  | none => rfl
  | some p =>
    exfalso
    induction s generalizing p with
    | nil => simp [stripVsAux] at haux
    | cons c rest ih =>
      unfold stripVsAux at haux
      have hh : hasVs rest = false := by
        cases rest with
        | nil => rfl
        | cons b r2 =>
          have : ((c = '-' && b = 'v') || hasVs (b :: r2)) = false := h
          exact (Bool.or_eq_false_iff.mp this).2
      cases haux2 : stripVsAux rest with
      | some q => exact ih hh q (by rw [haux2])
      | none =>
        rw [haux2] at haux
        simp only at haux
        split at haux
        · rename_i hcond
          obtain ⟨hc, hhead⟩ := hcond
          subst hc
          cases rest with
          | nil => simp at hhead
          | cons b r2 =>
            simp at hhead
            subst hhead
            have : ((('-' : Char) = '-' && ('v' : Char) = 'v') || hasVs ('v' :: r2)) = false := h
            simp at this
        · exact Option.noConfusion haux

/-- The versioned id `baseID-vN` (`fmt.Sprintf("%s-v%d", baseID, version)`). -/
def vid (b : Str) (n : Nat) : Str := b ++ '-' :: 'v' :: natStr n

theorem stripVs_vid (b : Str) (n : Nat) : stripVs (vid b n) = b :=
  stripVs_append b (natStr n) (natStr_no_dash n)

theorem hasVs_vid (b : Str) (n : Nat) : hasVs (vid b n) = true :=
  hasVs_append b (natStr n)

theorem vid_inj {b b2 : Str} {n n2 : Nat} (h : vid b n = vid b2 n2) :
    b = b2 ∧ n = n2 := by
  have hb : b = b2 := by
    have := stripVs_vid b n
    rw [h, stripVs_vid] at this
    exact this.symm
  subst hb
  refine ⟨rfl, ?_⟩
  unfold vid at h
  have h2 := List.append_cancel_left h
  simp only [List.cons.injEq] at h2
  exact natStr_injective h2.2.2

theorem vid_ne_of_no_vs {b s : Str} {n : Nat} (h : hasVs s = false) : vid b n ≠ s := by
  intro hc
  rw [← hc, hasVs_vid] at h
  exact Bool.noConfusion h

/-! ### Substring search (`strings.Contains`) and case folding. -/

/-- Model of `strings.HasPrefix`-style matching at the head. -/
def headMatches : Str → Str → Bool
  | _, [] => true
  | [], _ :: _ => false
  | a :: as, b :: bs => a = b && headMatches as bs

/-- Model of `strings.Contains`. -/
def containsSub : Str → Str → Bool
  | [], pat => headMatches [] pat
  | s@(_ :: rest), pat => headMatches s pat || containsSub rest pat

/-- Model of `strings.EqualFold`, restricted to ASCII folding. -/
def eqFold (a b : Str) : Bool := toLowerStr a = toLowerStr b

/-! ### Association lists standing for Go maps. -/

/-- Lookup in a Go map modelled as an association list. -/
def lookupA {α : Type} : List (Str × α) → Str → Option α
  | [], _ => none
  | e :: rest, k => if e.1 = k then some e.2 else lookupA rest k

/-- Map assignment `m[k] = v`: replace in place or append. -/
def insertA {α : Type} : List (Str × α) → Str → α → List (Str × α)
  | [], k, v => [(k, v)]
  | e :: rest, k, v => if e.1 = k then (k, v) :: rest else e :: insertA rest k v

/-- Map deletion `delete(m, k)` (removes the first matching entry). -/
def eraseA {α : Type} : List (Str × α) → Str → List (Str × α)
  | [], _ => []
  | e :: rest, k => if e.1 = k then rest else e :: eraseA rest k

/-- The keys of a modelled map. -/
def keysA {α : Type} (l : List (Str × α)) : List Str := l.map Prod.fst

/-- Lookup with a default, `m[k]` read on a possibly missing key. -/
def getDA {α : Type} (l : List (Str × α)) (k : Str) (d : α) : α :=
  (lookupA l k).getD d

theorem lookupA_nil {α : Type} (k : Str) : lookupA ([] : List (Str × α)) k = none :=
  rfl

theorem lookupA_cons {α : Type} (e : Str × α) (rest : List (Str × α)) (k : Str) :
    lookupA (e :: rest) k = if e.1 = k then some e.2 else lookupA rest k :=
  rfl

theorem insertA_nil {α : Type} (k : Str) (v : α) :
    insertA ([] : List (Str × α)) k v = [(k, v)] :=
  rfl

theorem insertA_cons {α : Type} (e : Str × α) (rest : List (Str × α)) (k : Str) (v : α) :
    insertA (e :: rest) k v = if e.1 = k then (k, v) :: rest else e :: insertA rest k v :=
  rfl

theorem eraseA_nil {α : Type} (k : Str) : eraseA ([] : List (Str × α)) k = [] :=
  rfl

theorem eraseA_cons {α : Type} (e : Str × α) (rest : List (Str × α)) (k : Str) :
    eraseA (e :: rest) k = if e.1 = k then rest else e :: eraseA rest k :=
  rfl

theorem lookupA_insertA_self {α : Type} (l : List (Str × α)) (k : Str) (v : α) :
    lookupA (insertA l k v) k = some v := by
  induction l with
  | nil => simp [insertA_nil, lookupA_cons]
  | cons e rest ih =>
    rw [insertA_cons]
    by_cases he : e.1 = k
    · rw [if_pos he, lookupA_cons, if_pos rfl]
    · rw [if_neg he, lookupA_cons, if_neg he, ih]

theorem lookupA_insertA_ne {α : Type} (l : List (Str × α)) (k k2 : Str) (v : α)
    (h : k2 ≠ k) : lookupA (insertA l k v) k2 = lookupA l k2 := by
  have hk : ¬ (k = k2) := by
    intro hc
    exact h hc.symm
  induction l with
  | nil => simp [insertA_nil, lookupA_cons, lookupA_nil, hk]
  | cons e rest ih =>
    rw [insertA_cons]
    by_cases he : e.1 = k
    · rw [if_pos he, lookupA_cons, lookupA_cons]
      have he2 : ¬ (e.1 = k2) := by
        rw [he]
        exact hk
      rw [if_neg hk, if_neg he2]
    · rw [if_neg he, lookupA_cons, lookupA_cons, ih]

theorem lookupA_eraseA_ne {α : Type} (l : List (Str × α)) (k k2 : Str)
    (h : k2 ≠ k) : lookupA (eraseA l k) k2 = lookupA l k2 := by
  induction l with
  | nil => rfl
  | cons e rest ih =>
    rw [eraseA_cons]
    by_cases he : e.1 = k
    · rw [if_pos he, lookupA_cons]
      have he2 : ¬ (e.1 = k2) := by
        rw [he]
        intro hc
        exact h hc.symm
      rw [if_neg he2]
    · rw [if_neg he, lookupA_cons, lookupA_cons, ih]

theorem mem_keysA_cons {α : Type} (e : Str × α) (rest : List (Str × α)) (k : Str) :
    k ∈ keysA (e :: rest) ↔ e.1 = k ∨ k ∈ keysA rest := by
  unfold keysA
  rw [List.map_cons, List.mem_cons]
  constructor
  · intro h
    rcases h with h | h
    · exact Or.inl h.symm
    · exact Or.inr h
  · intro h
    rcases h with h | h
    · exact Or.inl h.symm
    · exact Or.inr h

theorem mem_keysA_iff {α : Type} (l : List (Str × α)) (k : Str) :
    k ∈ keysA l ↔ (lookupA l k).isSome := by
  induction l with
  | nil =>
    constructor
    · intro h
      exact absurd h (List.not_mem_nil k)
    · intro h
      exact Bool.noConfusion h
  | cons e rest ih =>
    rw [mem_keysA_cons, lookupA_cons]
    by_cases he : e.1 = k
    · rw [if_pos he]
      exact iff_of_true (Or.inl he) rfl
    · rw [if_neg he]
      constructor
      · intro h
        rcases h with h | h
        · exact absurd h he
        · exact ih.mp h
      · intro h
        exact Or.inr (ih.mpr h)

theorem lookupA_eq_none_of_not_mem {α : Type} (l : List (Str × α)) (k : Str)
    (h : k ∉ keysA l) : lookupA l k = none := by
  by_contra hc
  refine h ((mem_keysA_iff l k).mpr ?_)
  cases hl : lookupA l k with
  | none => exact absurd hl hc
  | some v => simp

theorem insertA_of_not_mem {α : Type} (l : List (Str × α)) (k : Str) (v : α)
    (h : k ∉ keysA l) : insertA l k v = l ++ [(k, v)] := by
  induction l with
  | nil => rfl
  | cons e rest ih =>
    rw [insertA_cons]
    have he : ¬ (e.1 = k) := by
      intro hc
      exact h ((mem_keysA_cons e rest k).mpr (Or.inl hc))
    rw [if_neg he, ih]
    · rfl
    · intro hc
      exact h ((mem_keysA_cons e rest k).mpr (Or.inr hc))

theorem keysA_insertA_of_mem {α : Type} (l : List (Str × α)) (k : Str) (v : α)
    (h : k ∈ keysA l) : keysA (insertA l k v) = keysA l := by
  induction l with
  | nil => exact absurd h (List.not_mem_nil k)
  | cons e rest ih =>
    rw [insertA_cons]
    by_cases he : e.1 = k
    · rw [if_pos he]
      unfold keysA
      simp only [List.map_cons]
      rw [he]
    · rw [if_neg he]
      have hm : k ∈ keysA rest := by
        rcases (mem_keysA_cons e rest k).mp h with h1 | h1
        · exact absurd h1 he
        · exact h1
      unfold keysA
      simp only [List.map_cons]
      rw [show List.map Prod.fst (insertA rest k v) = keysA (insertA rest k v) from rfl,
        ih hm]
      rfl

theorem nodup_keysA_insertA {α : Type} (l : List (Str × α)) (k : Str) (v : α)
    (h : (keysA l).Nodup) : (keysA (insertA l k v)).Nodup := by
  by_cases hm : k ∈ keysA l
  · rw [keysA_insertA_of_mem l k v hm]
    exact h
  · rw [insertA_of_not_mem l k v hm]
    unfold keysA
    rw [List.map_append]
    simp only [List.map_cons, List.map_nil]
    rw [List.nodup_append]
    refine ⟨h, List.nodup_singleton k, ?_⟩
    intro a ha hb
    simp at hb
    subst hb
    exact hm ha

theorem eraseA_sublist {α : Type} (l : List (Str × α)) (k : Str) :
    (eraseA l k).Sublist l := by
  induction l with
  | nil => exact List.Sublist.refl _
  | cons e rest ih =>
    rw [eraseA_cons]
    by_cases he : e.1 = k
    · rw [if_pos he]
      exact List.sublist_cons_self e rest
    · rw [if_neg he]
      exact List.Sublist.cons₂ e ih

theorem nodup_keysA_eraseA {α : Type} (l : List (Str × α)) (k : Str)
    (h : (keysA l).Nodup) : (keysA (eraseA l k)).Nodup :=
  ((eraseA_sublist l k).map Prod.fst).nodup h

theorem lookupA_eraseA_self {α : Type} (l : List (Str × α)) (k : Str)
    (h : (keysA l).Nodup) : lookupA (eraseA l k) k = none := by
  induction l with
  | nil => rfl
  | cons e rest ih =>
    rw [eraseA_cons]
    have hnd : e.1 ∉ List.map Prod.fst rest ∧ (List.map Prod.fst rest).Nodup := by
      have h2 : (e.1 :: List.map Prod.fst rest).Nodup := h
      exact List.nodup_cons.mp h2
    by_cases he : e.1 = k
    · rw [if_pos he]
      apply lookupA_eq_none_of_not_mem
      rw [← he]
      exact hnd.1
    · rw [if_neg he, lookupA_cons, if_neg he]
      exact ih hnd.2

theorem perm_cons_eraseA {α : Type} (l : List (Str × α)) (k : Str) (v : α)
    (hl : lookupA l k = some v) : l.Perm ((k, v) :: eraseA l k) := by
  induction l with
  | nil => simp [lookupA_nil] at hl
  | cons e rest ih =>
    rw [lookupA_cons] at hl
    rw [eraseA_cons]
    by_cases he : e.1 = k
    · rw [if_pos he] at hl ⊢
      simp at hl
      have hev : e = (k, v) := by
        cases e
        simp at he hl ⊢
        exact ⟨he, hl⟩
      rw [hev]
    · rw [if_neg he] at hl ⊢
      exact ((ih hl).cons e).trans (List.Perm.swap _ _ _)

/-- Sum of the values of a `Str → Nat` map, used for `memorySizes`. -/
def sumVals (l : List (Str × Nat)) : Nat := (l.map Prod.snd).sum

theorem sumVals_perm {l l2 : List (Str × Nat)} (h : l.Perm l2) :
    sumVals l = sumVals l2 := by
  unfold sumVals
  exact (h.map Prod.snd).sum_eq

theorem sumVals_eraseA (l : List (Str × Nat)) (k : Str) (v : Nat)
    (hl : lookupA l k = some v) :
    sumVals l = v + sumVals (eraseA l k) := by
  have h := sumVals_perm (perm_cons_eraseA l k v hl)
  rw [h]
  unfold sumVals
  simp

theorem sumVals_insertA_none (l : List (Str × Nat)) (k : Str) (v : Nat)
    (hl : lookupA l k = none) :
    sumVals (insertA l k v) = sumVals l + v := by
  have hk : k ∉ keysA l := by
    intro h
    rw [mem_keysA_iff l k, hl] at h
    exact Bool.noConfusion h
  rw [insertA_of_not_mem l k v hk]
  unfold sumVals
  simp

theorem eraseA_insertA {α : Type} (l : List (Str × α)) (k : Str) (v : α)
    (h : (keysA l).Nodup) : eraseA (insertA l k v) k = eraseA l k := by
  induction l with
  | nil =>
    rw [insertA_nil, eraseA_cons, eraseA_nil, if_pos (show ((k, v) : Str × α).1 = k from rfl)]
  | cons e rest ih =>
    by_cases he : e.1 = k
    · rw [insertA_cons, if_pos he, eraseA_cons,
        if_pos (show ((k, v) : Str × α).1 = k from rfl), eraseA_cons, if_pos he]
    · have h2 : (e.1 :: List.map Prod.fst rest).Nodup := h
      have hrest := (List.nodup_cons.mp h2).2
      rw [insertA_cons, if_neg he, eraseA_cons, eraseA_cons, if_neg he, if_neg he,
        ih hrest]

theorem sumVals_insertA_some (l : List (Str × Nat)) (k : Str) (v old : Nat)
    (hl : lookupA l k = some old) (h : (keysA l).Nodup) :
    sumVals (insertA l k v) + old = sumVals l + v := by
  have h1 : lookupA (insertA l k v) k = some v := lookupA_insertA_self l k v
  have h2 := sumVals_eraseA (insertA l k v) k v h1
  rw [eraseA_insertA l k v h] at h2
  have h3 := sumVals_eraseA l k old hl
  omega

/-! ### Data model (`internal/memory/store.go`). -/

/-- Model of the `Memory` struct (field for field; timestamps are `Nat`). -/
structure Memory where
  id : Str
  content : Str
  summary : Str
  tags : List Str
  category : Str
  metadata : List (Str × Str)
  createdAt : Nat
  updatedAt : Nat
  accessCount : Nat
  lastAccess : Nat
  version : Nat
  previousVersionID : Str
  isCurrentVersion : Bool
deriving DecidableEq, Repr

/-- Model of `SearchQuery`.  `Limit` is a Go `int`; only non-negative requests
are representable here, which covers every claim in scope. -/
structure SearchQuery where
  query : Str
  tags : List Str
  category : Str
  limit : Nat
deriving DecidableEq, Repr

/-- Model of `BulkDeleteOptions`; the zero `time.Time` of `BeforeDate` is
`none`. -/
structure BulkDeleteOptions where
  category : Str
  tags : List Str
  beforeDate : Option Nat
  query : Str
  confirm : Bool
deriving DecidableEq, Repr

/-- The mutable fields of `Store`, as one value.  `files` is the contents of
`<data_dir>/memories/` as a map from the file's id stem to its byte size. -/
structure State where
  index : List (Str × Memory)
  categoryIndex : List (Str × List Str)
  tagIndex : List (Str × List Str)
  totalSize : Int
  memorySizes : List (Str × Nat)
  versionIndex : List (Str × List Str)
  files : List (Str × Nat)
deriving DecidableEq, Repr

/-- The store parameters the modelled operations depend on.  `generateID`
(first 16 hex digits of SHA-256) is abstracted as `genID`, and the byte length
produced by the codec pipeline (`json.Marshal`, then optional gzip, then
optional AEAD encryption) is abstracted as `encSize`; no claim in scope depends on
the concrete values of either. -/
structure Ctx where
  genID : Str → Str
  encSize : Memory → Nat
  maxFileSize : Nat
  maxStorageSize : Int

/-- The state of a freshly created store over an empty data directory. -/
def initState : State :=
  { index := [], categoryIndex := [], tagIndex := [], totalSize := 0,
    memorySizes := [], versionIndex := [], files := [] }

/-! ### Secondary index maintenance (`updateIndices` / `removeFromIndices`). -/

/-- Append `id` to the bucket at `key` unless already present (the
found-loop plus `append` in `updateIndices`). -/
def addIdUnique (l : List (Str × List Str)) (key id : Str) : List (Str × List Str) :=
  let ids := getDA l key []
  if id ∈ ids then l else insertA l key (ids ++ [id])

/-- Remove `id` from the bucket at `key` and drop the bucket when it becomes
empty (`removeFromIndices`). -/
def removeId (l : List (Str × List Str)) (key id : Str) : List (Str × List Str) :=
  let ids := (getDA l key []).erase id
  if ids = [] then eraseA l key else insertA l key ids

/-- Model of `Store.updateIndices`: category and tags are indexed under their
lower-cased form; no other component of the state is touched. -/
def updateIndices (m : Memory) (st : State) : State :=
  { st with
      categoryIndex :=
        if m.category ≠ [] then addIdUnique st.categoryIndex (toLowerStr m.category) m.id
        else st.categoryIndex
      tagIndex := m.tags.foldl (fun ti t => addIdUnique ti (toLowerStr t) m.id) st.tagIndex }

/-- Model of `Store.removeFromIndices`. -/
def removeFromIndices (m : Memory) (st : State) : State :=
  { st with
      categoryIndex :=
        if m.category ≠ [] then removeId st.categoryIndex (toLowerStr m.category) m.id
        else st.categoryIndex
      tagIndex := m.tags.foldl (fun ti t => removeId ti (toLowerStr t) m.id) st.tagIndex }

/-! ### File persistence (`saveMemoryToFile`). -/

/-- Model of `Store.saveMemoryToFile`: encode the record (length `encSize`),
fail with the *size-limit* error when the encoded length exceeds
`MaxFileSize`, otherwise atomically replace the record's file and return the
written length. -/
def saveMemoryToFile (ctx : Ctx) (m : Memory) (files : List (Str × Nat)) :
    Option Nat × List (Str × Nat) :=
  let size := ctx.encSize m
  if size > ctx.maxFileSize then (none, files)
  else (some size, insertA files m.id size)

/-- Update, in place, every index entry holding the record object with the
given `id` — the model of mutating a `*Memory` shared between the versioned-id
entry and the base-alias entry. -/
def mapById (f : Memory → Memory) (id : Str) (l : List (Str × Memory)) :
    List (Str × Memory) :=
  l.map (fun e => (e.1, if e.2.id = id then f e.2 else e.2))

/-! ### Store (`Store.Store`, synchronous configuration). -/

/-- The supersession step of `Store.Store`: when a current version exists
under the base id, clear its flag through the shared pointer, rewrite its
file with the returned size discarded, and hand back its id and successor
version number; otherwise version 1 with no predecessor. -/
def supersedePhase (ctx : Ctx) (baseID : Str) (st : State) : Str × Nat × State :=
  match lookupA st.index baseID with
  | some existing =>
    if existing.isCurrentVersion then
      let cleared := { existing with isCurrentVersion := false }
      let st2 := { st with
        index := mapById (fun m => { m with isCurrentVersion := false }) existing.id st.index }
      let st3 := { st2 with files := (saveMemoryToFile ctx cleared st2.files).2 }
      (existing.id, existing.version + 1, st3)
    else ([], 1, st)
  | none => ([], 1, st)

/-- The record literal constructed by `Store.Store`. -/
def newRecord (content summary category : Str) (tags : List Str)
    (metadata : List (Str × Str)) (now : Nat) (baseID : Str) (version : Nat)
    (previousVersionID : Str) : Memory :=
  { id := vid baseID version, content := content, summary := summary, tags := tags,
    category := category, metadata := metadata, createdAt := now, updatedAt := now,
    accessCount := 0, lastAccess := now, version := version,
    previousVersionID := previousVersionID, isCurrentVersion := true }

/-- The index updates of `Store.Store`: the record under its versioned id,
the base alias on top, and the version-index append. -/
def indexPhase (baseID : Str) (memory : Memory) (st : State) : State :=
  { st with
      index := insertA (insertA st.index memory.id memory) baseID memory
      versionIndex :=
        insertA st.versionIndex baseID (getDA st.versionIndex baseID [] ++ [memory.id]) }

/-- The synchronous save of `Store.Store`: on success apply the
old-size/new-size accounting; on a *size-limit* failure return the error with
the index updates already applied, as in the source. -/
def savePhase (ctx : Ctx) (memory : Memory) (st : State) : Option Memory × State :=
  match saveMemoryToFile ctx memory st.files with
  | (none, _) => (none, st)
  | (some fileSize, files2) =>
    (some memory,
     { st with
        files := files2
        totalSize := st.totalSize - getDA st.memorySizes memory.id 0 + fileSize
        memorySizes := insertA st.memorySizes memory.id fileSize })

/-- Model of `Store.Store` with `EnableAsync = false`: compute the base id,
supersede any existing current version, build the new record, insert it under
its versioned id and under the base alias, append to the version index,
update the secondary indices, then save synchronously and apply the size
accounting.  The follow-up `cleanupOldMemories` call that the source makes
when `totalSize` exceeds `MaxStorageSize` is not part of this function;
reachability below therefore only uses `storeOp` when the resulting
`totalSize` stays within `MaxStorageSize`. -/
def storeOp (ctx : Ctx) (content summary category : Str) (tags : List Str)
    (metadata : List (Str × Str)) (now : Nat) (st : State) : Option Memory × State :=
  let baseID := ctx.genID content
  let pv := supersedePhase ctx baseID st
  let memory := newRecord content summary category tags metadata now baseID pv.2.1 pv.1
  savePhase ctx memory (updateIndices memory (indexPhase baseID memory pv.2.2))

/-! ### Get (`Store.Get`). -/

/-- Model of `Store.Get`: resolve a versioned id or base alias, bump the
access statistics through the shared pointer, rewrite the record's file
best-effort — the returned size is discarded, so `memorySizes` and
`totalSize` are deliberately left untouched, as in the source. -/
def getOp (ctx : Ctx) (id : Str) (now : Nat) (st : State) : Option Memory × State :=
  match lookupA st.index id with
  | none => (none, st)
  | some memory =>
    let bumped := { memory with accessCount := memory.accessCount + 1, lastAccess := now }
    let st2 := { st with
      index := mapById
        (fun m => { m with accessCount := m.accessCount + 1, lastAccess := now })
        memory.id st.index }
    let st3 := { st2 with files := (saveMemoryToFile ctx bumped st2.files).2 }
    (some bumped, st3)

/-! ### Delete (`Store.Delete`). -/

/-- Model of `Store.Delete`: not-found when the id is absent from the index;
`os.Remove` fails (and the operation aborts with no state change) when the
record's file is absent; otherwise remove the file, subtract the recorded
size, remove the record from the secondary indices and the primary index.
The base-alias entry and the version index are not touched, as in the
source. -/
def deleteOp (id : Str) (st : State) : Bool × State :=
  match lookupA st.index id with
  | none => (false, st)
  | some memory =>
    match lookupA st.files id with
    | none => (false, st)
    | some _ =>
      let st2 := { st with files := eraseA st.files id }
      let st3 := { st2 with
        totalSize := st2.totalSize - (getDA st2.memorySizes id 0 : Nat)
        memorySizes := eraseA st2.memorySizes id }
      let st4 := removeFromIndices memory st3
      (true, { st4 with index := eraseA st4.index id })

/-! ### Search and List (`Store.Search`, `Store.List`). -/

/-- Model of `Store.hasAnyTag` (case-insensitive tag comparison via
`strings.EqualFold`). -/
def hasAnyTag (memoryTags queryTags : List Str) : Bool :=
  queryTags.any (fun qt => memoryTags.any (fun mt => eqFold mt qt))

/-- One modelled day, for the 24-hour recent-access boost. -/
def daySeconds : Nat := 86400

/-- Model of `Store.calculateRelevanceScore`.  The float64 boosts
1.0 / 0.8 / 0.5 / 0.3 / 0.1 are scaled by ten to 10 / 8 / 5 / 3 / 1. -/
def calculateRelevanceScore (now : Nat) (m : Memory) (q : SearchQuery)
    (queryLower : Str) : Nat :=
  (if containsSub (toLowerStr m.content) queryLower then 10 else 0)
  + (if m.summary ≠ [] ∧ containsSub (toLowerStr m.summary) queryLower then 8 else 0)
  + (if q.category ≠ [] ∧ m.category = q.category then 5 else 0)
  + (if q.tags ≠ [] ∧ hasAnyTag m.tags q.tags then 3 else 0)
  + (if now < m.lastAccess + daySeconds then 1 else 0)

/-- The candidate id set built by `Search`/`List` from the category and tag
indices; `none` models the `nil` map (no filter), `some ids` a concrete
candidate set — note that a non-empty category filter always yields a non-nil
(possibly empty) set, and that the category index is consulted with the
caller's string verbatim while tags are lower-cased. -/
def candidateSetOpt (st : State) (category : Str) (tags : List Str) :
    Option (List Str) :=
  let catIds : Option (List Str) :=
    if category ≠ [] then some (getDA st.categoryIndex category []) else none
  if tags ≠ [] then
    let tagIds :=
      tags.foldl (fun acc t => acc ++ getDA st.tagIndex (toLowerStr t) []) []
    match catIds with
    | some ids => some (ids.filter (fun id => id ∈ tagIds))
    | none => some tagIds
  else catIds

/-- Insertion into a list sorted by the Boolean comparator `le`
(`le a b` means `a` may be placed before `b`). -/
def insertSorted {α : Type} (le : α → α → Bool) (a : α) : List α → List α
  | [] => [a]
  | b :: rest => if le a b then a :: b :: rest else b :: insertSorted le a rest

/-- Model of `sort.Slice` with comparator `le` (the source's sort is
unstable; any order among ties is admissible, and this model fixes one). -/
def sortByB {α : Type} (le : α → α → Bool) (l : List α) : List α :=
  l.foldr (insertSorted le) []

/-- One iteration of the scoring loop of `Search`: skip entries outside the
candidate set, score the rest, and keep those with a strictly positive
score. -/
def searchEntryScore (now : Nat) (q : SearchQuery) (queryLower : Str)
    (cands : Option (List Str)) (e : Str × Memory) : Option (Memory × Nat) :=
  if (match cands with
      | some ids => decide (e.1 ∈ ids)
      | none => true) then
    let score := calculateRelevanceScore now e.2 q queryLower
    if score > 0 then some (e.2, score) else none
  else none

/-- Model of `Store.Search`: build the candidate set, score every index entry
(current versions appear both under their versioned id and the base alias),
keep strictly positive scores, sort descending by score, and truncate —
`limit` is reset to the default 20 both when it is 0 and when it exceeds
50. -/
def searchOp (now : Nat) (q : SearchQuery) (st : State) : List Memory :=
  let queryLower := toLowerStr q.query
  let cands := candidateSetOpt st q.category q.tags
  let results := st.index.filterMap (searchEntryScore now q queryLower cands)
  let sorted := sortByB (fun a b => decide (b.2 < a.2)) results
  let limit := if q.limit = 0 ∨ q.limit > 50 then 20 else q.limit
  (sorted.take limit).map Prod.fst

/-- Model of `Store.List`: same candidate selection as search, no scoring,
sorted by creation time newest first, truncated when `limit > 0`. -/
def listOp (category : Str) (tags : List Str) (limit : Nat) (st : State) :
    List Memory :=
  let cands := candidateSetOpt st category tags
  let results : List Memory :=
    match cands with
    | some ids => ids.filterMap (fun id => lookupA st.index id)
    | none => st.index.map Prod.snd
  let sorted := sortByB (fun a b => decide (b.createdAt < a.createdAt)) results
  if limit > 0 ∧ sorted.length > limit then sorted.take limit else sorted

/-! ### Stats (`Store.GetStats`). -/

/-- Typed view of the map returned by `GetStats` (the float64
`storage_used_pct` and the constant `data_directory` are represented only in
`getStatsKeys`). -/
structure Stats where
  totalMemories : Nat
  categories : List (Str × Nat)
  totalAccessCount : Nat
  totalSize : Int
  maxStorageSize : Int
deriving DecidableEq, Repr

/-- Model of `Store.GetStats`: `total_memories` is `len(s.index)`, the
category histogram counts every index entry's verbatim category, and
`total_access_count` sums every index entry's access count. -/
def getStatsOp (ctx : Ctx) (st : State) : Stats :=
  let acc := st.index.foldl
    (fun (acc : List (Str × Nat) × Nat) e =>
      (if e.2.category ≠ [] then insertA acc.1 e.2.category (getDA acc.1 e.2.category 0 + 1)
       else acc.1,
       acc.2 + e.2.accessCount))
    ([], 0)
  { totalMemories := st.index.length, categories := acc.1, totalAccessCount := acc.2,
    totalSize := st.totalSize, maxStorageSize := ctx.maxStorageSize }

/-- The literal key set of the `map[string]interface{}` built by
`Store.GetStats`. -/
def getStatsKeys : List Str :=
  [str ("total_memories"), str ("categories"), str ("total_access_count"),
   str ("data_directory"), str ("total_size"), str ("max_storage_size"),
   str ("storage_used_pct")]

/-! ### Bulk delete (`Store.BulkDelete`). -/

/-- The conjunction of the four optional predicates of `BulkDelete`. -/
def matchesOptions (opts : BulkDeleteOptions) (m : Memory) : Bool :=
  (decide (opts.category = []) || decide (m.category = opts.category))
  && (decide (opts.tags = []) ||
      opts.tags.any (fun ft => m.tags.any (fun mt => eqFold mt ft)))
  && (match opts.beforeDate with
      | none => true
      | some d => decide (m.createdAt < d))
  && (decide (opts.query = [])
      || containsSub (toLowerStr m.content) (toLowerStr opts.query)
      || (decide (m.summary ≠ []) &&
          containsSub (toLowerStr m.summary) (toLowerStr opts.query)))

/-- The match-loop skip condition: an entry is considered unless it is a
non-current record stored under a key without `"-v"`; consequently superseded
versions (whose keys contain `"-v"`) are tested against the predicates. -/
def bulkConsider (k : Str) (m : Memory) : Bool :=
  !(!m.isCurrentVersion && !hasVs k)

/-- First-occurrence deduplication, the model of accumulating into a
`map[string]bool`. -/
def dedupStr (l : List Str) : List Str :=
  l.foldl (fun acc s => if s ∈ acc then acc else acc ++ [s]) []

/-- The set `baseIDsToDelete` of `BulkDelete`. -/
def matchedBases (opts : BulkDeleteOptions) (st : State) : List Str :=
  dedupStr (st.index.filterMap (fun e =>
    if bulkConsider e.1 e.2 && matchesOptions opts e.2 then some (stripVs e.1)
    else none))

/-- The `toDelete` list of `BulkDelete`: every version-index entry of each
matched base, plus the base key itself when present in the primary index and
not already listed. -/
def bulkToDelete (st : State) (bases : List Str) : List Str :=
  bases.foldl (fun acc b =>
    let acc2 := acc ++ getDA st.versionIndex b []
    if (lookupA st.index b).isSome then
      if b ∈ acc2 then acc2 else acc2 ++ [b]
    else acc2) []

/-- One iteration of the deletion loop of `BulkDelete`: skip ids no longer in
the index; base-alias reference entries (key without `"-v"`, positive
version) are removed from the index without counting; otherwise the file is
removed if present, the accounting and secondary indices are updated, the
entry is erased and the deletion counted.  Individual `os.Remove` failures
(aggregated as non-fatal errors in the source) are modelled as not
occurring. -/
def bulkDeleteRecord (st : State) (id : Str) (memory : Memory) : State :=
  let st2 := { st with files := eraseA st.files id }
  let st3 := { st2 with
    totalSize := st2.totalSize - (getDA st2.memorySizes id 0 : Nat)
    memorySizes := eraseA st2.memorySizes id }
  let st4 := removeFromIndices memory st3
  { st4 with index := eraseA st4.index id }

def bulkDeleteOne (st : State) (id : Str) (count : Nat) : State × Nat :=
  match lookupA st.index id with
  | none => (st, count)
  | some memory =>
    if ¬ hasVs id ∧ memory.version > 0 then
      ({ st with index := eraseA st.index id }, count)
    else (bulkDeleteRecord st id memory, count + 1)

/-- Model of `Store.BulkDelete`.  Returns the deleted count, the *bad-request*
error if any, and the resulting state. -/
def bulkDeleteOp (opts : BulkDeleteOptions) (st : State) : Nat × Option Str × State :=
  if !opts.confirm then
    (0, some (str ("confirmation required: set confirm to true")), st)
  else if opts.category = [] ∧ opts.tags = [] ∧ opts.beforeDate = none ∧ opts.query = [] then
    (0, some (str ("at least one filter (category, tags, beforeDate, or query) must be specified")), st)
  else
    let bases := matchedBases opts st
    let toDel := bulkToDelete st bases
    let folded := toDel.foldl (fun (p : State × Nat) id => bulkDeleteOne p.1 id p.2) (st, 0)
    let st2 := { folded.1 with
      versionIndex := bases.foldl (fun vi b => eraseA vi b) folded.1.versionIndex }
    (folded.2, none, st2)

/-! ### Basic facts about the store operations. -/

theorem storeOp_eq (ctx : Ctx) (content summary category : Str) (tags : List Str)
    (metadata : List (Str × Str)) (now : Nat) (st : State) :
    storeOp ctx content summary category tags metadata now st =
      savePhase ctx
        (newRecord content summary category tags metadata now (ctx.genID content)
          (supersedePhase ctx (ctx.genID content) st).2.1
          (supersedePhase ctx (ctx.genID content) st).1)
        (updateIndices
          (newRecord content summary category tags metadata now (ctx.genID content)
            (supersedePhase ctx (ctx.genID content) st).2.1
            (supersedePhase ctx (ctx.genID content) st).1)
          (indexPhase (ctx.genID content)
            (newRecord content summary category tags metadata now (ctx.genID content)
              (supersedePhase ctx (ctx.genID content) st).2.1
              (supersedePhase ctx (ctx.genID content) st).1)
            (supersedePhase ctx (ctx.genID content) st).2.2)) := rfl

theorem savePhase_some (ctx : Ctx) (m : Memory) (st : State) (r : Memory) (st2 : State)
    (h : savePhase ctx m st = (some r, st2)) :
    r = m ∧ st2.index = st.index ∧ st2.versionIndex = st.versionIndex ∧
      st2.categoryIndex = st.categoryIndex ∧ st2.tagIndex = st.tagIndex := by
  unfold savePhase saveMemoryToFile at h
  by_cases hsz : ctx.encSize m > ctx.maxFileSize
  · rw [if_pos hsz] at h
    simp at h
  · rw [if_neg hsz] at h
    simp only [Prod.mk.injEq, Option.some.injEq] at h
    obtain ⟨hr, hst⟩ := h
    subst hr
    subst hst
    exact ⟨rfl, rfl, rfl, rfl, rfl⟩

theorem newRecord_current (content summary category : Str) (tags : List Str)
    (metadata : List (Str × Str)) (now : Nat) (b : Str) (v : Nat) (p : Str) :
    (newRecord content summary category tags metadata now b v p).isCurrentVersion = true :=
  rfl

theorem indexPhase_index (baseID : Str) (m : Memory) (st : State) :
    (indexPhase baseID m st).index = insertA (insertA st.index m.id m) baseID m := rfl

theorem updateIndices_index (m : Memory) (st : State) :
    (updateIndices m st).index = st.index := rfl

theorem storeOp_some_state (ctx : Ctx) (content summary category : Str)
    (tags : List Str) (metadata : List (Str × Str)) (now : Nat) (st : State)
    (r : Memory) (stOut : State)
    (h : storeOp ctx content summary category tags metadata now st = (some r, stOut)) :
    r = newRecord content summary category tags metadata now (ctx.genID content)
        (supersedePhase ctx (ctx.genID content) st).2.1
        (supersedePhase ctx (ctx.genID content) st).1 ∧
    stOut.index =
      insertA (insertA (supersedePhase ctx (ctx.genID content) st).2.2.index r.id r)
        (ctx.genID content) r := by
  rw [storeOp_eq] at h
  obtain ⟨hr, hidx, _⟩ := savePhase_some _ _ _ _ _ h
  constructor
  · exact hr
  · rw [hidx, updateIndices_index, indexPhase_index, hr]

/-! ### C8 — BulkDelete validation. -/

/-- C8: `BulkDelete` called without the confirmation flag, or with the flag
but no predicate (no category, no tags, no before-date, no query), returns a
bad-request error with a deleted count of 0 and leaves the store state
entirely unchanged. -/
theorem C8_bulkDelete_validation (opts : BulkDeleteOptions) (st : State)
    (h : opts.confirm = false ∨
      (opts.category = [] ∧ opts.tags = [] ∧ opts.beforeDate = none ∧ opts.query = [])) :
    (bulkDeleteOp opts st).1 = 0 ∧ (bulkDeleteOp opts st).2.1.isSome = true ∧
      (bulkDeleteOp opts st).2.2 = st := by
  unfold bulkDeleteOp
  cases hcf : opts.confirm with
  | false =>
    simp only [hcf, Bool.not_false, if_true]
    refine ⟨?_, ?_, ?_⟩ <;> trivial
  | true =>
    rcases h with h | h
    · rw [h] at hcf
      exact Bool.noConfusion hcf
    · simp only [hcf, Bool.not_true, Bool.false_eq_true, if_false]
      rw [if_pos h]
      refine ⟨?_, ?_, ?_⟩ <;> trivial

/-- Witness for C8 at a concrete input: an unconfirmed bulk delete over the
empty store fails as a bad-request and changes nothing. -/
theorem C8_bulkDelete_validation_witness :
    (bulkDeleteOp
        { category := str ("x"), tags := [], beforeDate := none, query := [],
          confirm := false } initState).1 = 0 ∧
    (bulkDeleteOp
        { category := str ("x"), tags := [], beforeDate := none, query := [],
          confirm := false } initState).2.1.isSome = true ∧
    (bulkDeleteOp
        { category := str ("x"), tags := [], beforeDate := none, query := [],
          confirm := false } initState).2.2 = initState :=
  C8_bulkDelete_validation _ initState (Or.inl rfl)

/-! ### C2 — idempotent re-store creates the successor version. -/

/-- C2: storing identical content twice with no intervening operation yields
a record with `version = prev.version + 1` and
`previous_version_id = prev.id`, after which the base alias resolves to the
new record.  The starting state is arbitrary. -/
theorem C2_store_idempotence (ctx : Ctx) (st : State)
    (content summary category : Str) (tags : List Str) (metadata : List (Str × Str))
    (t1 t2 : Nat) (r1 r2 : Memory) (st1 st2 : State)
    (h1 : storeOp ctx content summary category tags metadata t1 st = (some r1, st1))
    (h2 : storeOp ctx content summary category tags metadata t2 st1 = (some r2, st2)) :
    r2.version = r1.version + 1 ∧ r2.previousVersionID = r1.id ∧
      lookupA st2.index (ctx.genID content) = some r2 := by
  obtain ⟨hr1, hidx1⟩ := storeOp_some_state _ _ _ _ _ _ _ _ _ _ h1
  obtain ⟨hr2, hidx2⟩ := storeOp_some_state _ _ _ _ _ _ _ _ _ _ h2
  have hlook : lookupA st1.index (ctx.genID content) = some r1 := by
    rw [hidx1]
    exact lookupA_insertA_self _ _ _
  have hcur : r1.isCurrentVersion = true := by
    rw [hr1]
    rfl
  have hsup : supersedePhase ctx (ctx.genID content) st1 =
      (r1.id, r1.version + 1,
        { { st1 with
            index := mapById (fun m => { m with isCurrentVersion := false }) r1.id st1.index }
          with files := (saveMemoryToFile ctx { r1 with isCurrentVersion := false }
            st1.files).2 }) := by
    unfold supersedePhase
    rw [hlook]
    simp only [hcur, if_true]
  refine ⟨?_, ?_, ?_⟩
  · rw [hr2, hsup]
    rfl
  · rw [hr2, hsup]
    rfl
  · rw [hidx2]
    exact lookupA_insertA_self _ _ _

/-- A concrete store context used by witnesses and counterexamples: every
content hashes to base `"b16"`, every encoded record is one byte. -/
def ctxW : Ctx :=
  { genID := fun _ => str ("b16"), encSize := fun _ => 1, maxFileSize := 100,
    maxStorageSize := 1000000 }

/-- First store of content `"a"` from the empty store. -/
def storeW1 : Option Memory × State := storeOp ctxW (str ("a")) [] [] [] [] 1 initState

/-- Second store of the same content. -/
def storeW2 : Option Memory × State := storeOp ctxW (str ("a")) [] [] [] [] 2 storeW1.2

/-- The record returned by the first store. -/
def rW1 : Memory := storeW1.1.getD (newRecord [] [] [] [] [] 0 [] 0 [])

/-- The record returned by the second store. -/
def rW2 : Memory := storeW2.1.getD (newRecord [] [] [] [] [] 0 [] 0 [])

/-- Witness for C2 at a concrete input: two stores of content `"a"` from the
empty store produce versions 1 and 2 with the alias on version 2. -/
theorem C2_store_idempotence_witness :
    rW2.version = rW1.version + 1 ∧ rW2.previousVersionID = rW1.id ∧
      lookupA storeW2.2.index (ctxW.genID (str ("a"))) = some rW2 :=
  C2_store_idempotence ctxW initState (str ("a")) [] [] [] [] 1 2 rW1 rW2
    storeW1.2 storeW2.2 (by decide) (by decide)

/-! ### Sorting facts for `sortByB` (the model of `sort.Slice`). -/

theorem mem_insertSorted {α : Type} (le : α → α → Bool) (a x : α) (l : List α) :
    x ∈ insertSorted le a l ↔ x = a ∨ x ∈ l := by
  induction l with
  | nil => simp [insertSorted]
  | cons b rest ih =>
    unfold insertSorted
    by_cases hle : le a b = true
    · rw [if_pos hle]
      simp
    · rw [if_neg hle]
      simp only [List.mem_cons, ih]
      tauto

theorem mem_sortByB {α : Type} (le : α → α → Bool) (x : α) (l : List α) :
    x ∈ sortByB le l ↔ x ∈ l := by
  induction l with
  | nil => simp [sortByB]
  | cons b rest ih =>
    show x ∈ insertSorted le b (sortByB le rest) ↔ _
    rw [mem_insertSorted, ih]
    simp

theorem length_insertSorted {α : Type} (le : α → α → Bool) (a : α) (l : List α) :
    (insertSorted le a l).length = l.length + 1 := by
  induction l with
  | nil => rfl
  | cons b rest ih =>
    unfold insertSorted
    by_cases hle : le a b = true
    · rw [if_pos hle]
      rfl
    · rw [if_neg hle]
      simp [ih]

theorem length_sortByB {α : Type} (le : α → α → Bool) (l : List α) :
    (sortByB le l).length = l.length := by
  induction l with
  | nil => rfl
  | cons b rest ih =>
    show (insertSorted le b (sortByB le rest)).length = _
    rw [length_insertSorted, ih]
    rfl

theorem chain_insertSorted {α : Type} (le : α → α → Bool) (R : α → α → Prop)
    (hTrue : ∀ x y, le x y = true → R x y)
    (hFalse : ∀ x y, le x y = false → R y x)
    (a : α) (l : List α) (h : List.Chain' R l) :
    List.Chain' R (insertSorted le a l) := by
  induction l with
  | nil => simp [insertSorted]
  | cons b rest ih =>
    unfold insertSorted
    by_cases hle : le a b = true
    · rw [if_pos hle]
      exact List.chain'_cons.mpr ⟨hTrue a b hle, h⟩
    · rw [if_neg hle]
      have hrest : List.Chain' R rest := (List.chain'_cons'.mp h).2
      refine List.chain'_cons'.mpr ⟨?_, ih hrest⟩
      intro y hy
      cases rest with
      | nil =>
        simp [insertSorted] at hy
        subst hy
        exact hFalse a b (Bool.eq_false_iff.mpr hle)
      | cons c r2 =>
        unfold insertSorted at hy
        by_cases hlc : le a c = true
        · rw [if_pos hlc] at hy
          simp at hy
          subst hy
          exact hFalse a b (Bool.eq_false_iff.mpr hle)
        · rw [if_neg hlc] at hy
          simp at hy
          subst hy
          exact (List.chain'_cons.mp h).1

theorem chain_sortByB {α : Type} (le : α → α → Bool) (R : α → α → Prop)
    (hTrue : ∀ x y, le x y = true → R x y)
    (hFalse : ∀ x y, le x y = false → R y x)
    (l : List α) : List.Chain' R (sortByB le l) := by
  induction l with
  | nil => simp [sortByB]
  | cons b rest ih =>
    exact chain_insertSorted le R hTrue hFalse b (sortByB le rest) ih

/-- Transfer a descending chain on scored pairs with coherent scores to a
chain on the underlying memories. -/
theorem chain_map_fst_of_snd {β : Type} (g : β → Nat) (l : List (β × Nat))
    (hcoh : ∀ p ∈ l, p.2 = g p.1)
    (h : List.Chain' (fun a b => b.2 ≤ a.2) l) :
    List.Chain' (fun a b => g b ≤ g a) (l.map Prod.fst) := by
  induction l with
  | nil => simp
  | cons p rest ih =>
    rw [List.map_cons]
    refine List.chain'_cons'.mpr ⟨?_, ih (fun x hx => hcoh x (List.mem_cons_of_mem p hx))
      (List.chain'_cons'.mp h).2⟩
    intro y hy
    cases rest with
    | nil => simp at hy
    | cons q r2 =>
      simp at hy
      subst hy
      have h1 : q.2 ≤ p.2 := (List.chain'_cons.mp h).1
      have h2 := hcoh p (List.mem_cons_self p _)
      have h3 := hcoh q (List.mem_cons_of_mem p (List.mem_cons_self q _))
      rw [h2] at h1
      rw [h3] at h1
      exact h1

theorem searchEntryScore_some (now : Nat) (q : SearchQuery) (queryLower : Str)
    (cands : Option (List Str)) (e : Str × Memory) (p : Memory × Nat)
    (h : searchEntryScore now q queryLower cands e = some p) :
    p.1 = e.2 ∧ p.2 = calculateRelevanceScore now e.2 q queryLower ∧ 0 < p.2 := by
  unfold searchEntryScore at h
  split at h
  · by_cases hs : calculateRelevanceScore now e.2 q queryLower > 0
    · rw [if_pos hs] at h
      simp at h
      subst h
      exact ⟨rfl, rfl, hs⟩
    · rw [if_neg hs] at h
      exact Option.noConfusion h
  · exact Option.noConfusion h

/-! ### C4 — search filtering, ordering and truncation  (amended). -/

/-- C4 (amended): `Search` keeps only candidates with a strictly positive
relevance score and returns them sorted descending by score, but the
truncation threshold is the requested limit only when `1 ≤ limit ≤ 50`; a
limit of 0 **or any limit greater than 50** is replaced by the default 20 —
a request with limit 60 therefore returns at most 20 results, not up to
50. -/
theorem C4_search_properties (now : Nat) (q : SearchQuery) (st : State) :
    (searchOp now q st).length ≤ (if q.limit = 0 ∨ q.limit > 50 then 20 else q.limit) ∧
    (∀ m ∈ searchOp now q st,
      0 < calculateRelevanceScore now m q (toLowerStr q.query)) ∧
    List.Chain'
      (fun a b => calculateRelevanceScore now b q (toLowerStr q.query) ≤
        calculateRelevanceScore now a q (toLowerStr q.query))
      (searchOp now q st) := by
  unfold searchOp
  refine ⟨?_, ?_, ?_⟩
  · rw [List.length_map, List.length_take]
    exact min_le_left _ _
  · intro m hm
    rw [List.mem_map] at hm
    obtain ⟨p, hp, hpm⟩ := hm
    have hp2 : p ∈ sortByB (fun a b => decide (b.2 < a.2))
        (st.index.filterMap (searchEntryScore now q (toLowerStr q.query)
          (candidateSetOpt st q.category q.tags))) := List.take_subset _ _ hp
    rw [mem_sortByB] at hp2
    rw [List.mem_filterMap] at hp2
    obtain ⟨e, _, he⟩ := hp2
    obtain ⟨h1, h2, h3⟩ := searchEntryScore_some _ _ _ _ _ _ he
    rw [← hpm, h1, ← h2]
    exact h3
  · have hcoh : ∀ p ∈ sortByB (fun a b => decide (b.2 < a.2))
        (st.index.filterMap (searchEntryScore now q (toLowerStr q.query)
          (candidateSetOpt st q.category q.tags))),
        p.2 = calculateRelevanceScore now p.1 q (toLowerStr q.query) := by
      intro p hp
      rw [mem_sortByB, List.mem_filterMap] at hp
      obtain ⟨e, _, he⟩ := hp
      obtain ⟨h1, h2, _⟩ := searchEntryScore_some _ _ _ _ _ _ he
      rw [h2, h1]
    have hchain : List.Chain' (fun (a b : Memory × Nat) => b.2 ≤ a.2)
        (sortByB (fun a b => decide (b.2 < a.2))
          (st.index.filterMap (searchEntryScore now q (toLowerStr q.query)
            (candidateSetOpt st q.category q.tags)))) := by
      refine chain_sortByB _ _ ?_ ?_ _
      · intro x y hxy
        simp at hxy
        omega
      · intro x y hxy
        simp at hxy
        omega
    refine chain_map_fst_of_snd _ _ ?_ (hchain.take _)
    intro p hp
    exact hcoh p (List.take_subset _ _ hp)

/-- The store state for the C4 counterexample: 25 records whose content is
`"a"`, all matching the query `"a"` with score 11. -/
def stC4 : State :=
  { initState with
      index := (List.range 25).map (fun i =>
        (natStr i,
         { id := natStr i, content := str ("a"), summary := [], tags := [],
           category := [], metadata := [], createdAt := 0, updatedAt := 0,
           accessCount := 0, lastAccess := 0, version := 1, previousVersionID := [],
           isCurrentVersion := true })) }

/-- The C4 query: limit 60. -/
def qC4 : SearchQuery := { query := str ("a"), tags := [], category := [], limit := 60 }

/-- Counterexample to C4 as stated: with 25 candidates of positive score and
a requested limit of 60, the claim's truncation `min(limit, 50) = 50` would
return all 25 results, but `Search` returns exactly 20 — limits above 50 are
replaced by the default 20, not clamped to 50. -/
theorem C4_counterexample :
    (stC4.index.countP (fun e =>
      decide (0 < calculateRelevanceScore 0 e.2 qC4 (toLowerStr qC4.query)))) = 25 ∧
    (searchOp 0 qC4 stC4).length = 20 ∧ min 25 (min 60 50) ≠ 20 := by
  refine ⟨by decide, by decide, by decide⟩

/-! ### The accounting invariant (C5) and reachability over all operations. -/

theorem eraseA_of_not_mem {α : Type} (l : List (Str × α)) (k : Str)
    (h : k ∉ keysA l) : eraseA l k = l := by
  induction l with
  | nil => rfl
  | cons e rest ih =>
    rw [eraseA_cons]
    have he : ¬ (e.1 = k) := by
      intro hc
      exact h ((mem_keysA_cons e rest k).mpr (Or.inl hc))
    rw [if_neg he, ih]
    intro hc
    exact h ((mem_keysA_cons e rest k).mpr (Or.inr hc))

theorem mem_keysA_addIdUnique (l : List (Str × List Str)) (key id k : Str)
    (h : k ∈ keysA (addIdUnique l key id)) : k ∈ keysA l ∨ k = key := by
  unfold addIdUnique at h
  by_cases hmem : id ∈ getDA l key []
  · rw [if_pos hmem] at h
    exact Or.inl h
  · rw [if_neg hmem] at h
    by_cases hk : key ∈ keysA l
    · rw [keysA_insertA_of_mem _ _ _ hk] at h
      exact Or.inl h
    · rw [insertA_of_not_mem _ _ _ hk] at h
      unfold keysA at h
      rw [List.map_append] at h
      rcases List.mem_append.mp h with h1 | h1
      · exact Or.inl h1
      · simp at h1
        exact Or.inr h1

theorem mem_keysA_removeId (l : List (Str × List Str)) (key id k : Str)
    (h : k ∈ keysA (removeId l key id)) : k ∈ keysA l := by
  unfold removeId at h
  by_cases hnil : (getDA l key []).erase id = []
  · rw [if_pos hnil] at h
    exact ((eraseA_sublist l key).map Prod.fst).mem h
  · rw [if_neg hnil] at h
    have hkey : key ∈ keysA l := by
      rw [mem_keysA_iff]
      cases hl : lookupA l key with
      | none =>
        exfalso
        refine hnil ?_
        unfold getDA
        rw [hl]
        rfl
      | some v => rfl
    rw [keysA_insertA_of_mem _ _ _ hkey] at h
    exact h

/-- The state components constrained after every operation: `total_size`
equals the sum of the recorded per-id sizes, the size-map keys are unique,
and every category-index key is free of upper-case letters. -/
structure Inv2 (st : State) : Prop where
  size_eq : st.totalSize = (sumVals st.memorySizes : Int)
  sizes_nodup : (keysA st.memorySizes).Nodup
  cat_lower : ∀ k ∈ keysA st.categoryIndex, ∀ c ∈ k, isUpper c = false

theorem supersedePhase_fields (ctx : Ctx) (b : Str) (st : State) :
    (supersedePhase ctx b st).2.2.totalSize = st.totalSize ∧
    (supersedePhase ctx b st).2.2.memorySizes = st.memorySizes ∧
    (supersedePhase ctx b st).2.2.categoryIndex = st.categoryIndex ∧
    (supersedePhase ctx b st).2.2.tagIndex = st.tagIndex ∧
    (supersedePhase ctx b st).2.2.versionIndex = st.versionIndex := by
  unfold supersedePhase
  cases lookupA st.index b with
  | none => exact ⟨rfl, rfl, rfl, rfl, rfl⟩
  | some ex =>
    by_cases hc : ex.isCurrentVersion
    · simp only [hc, if_true]
      refine ⟨?_, ?_, ?_, ?_, ?_⟩ <;> trivial
    · simp only [hc, if_false]
      refine ⟨?_, ?_, ?_, ?_, ?_⟩ <;> trivial

theorem inv2_supersedePhase (ctx : Ctx) (b : Str) (st : State) (h : Inv2 st) :
    Inv2 (supersedePhase ctx b st).2.2 := by
  obtain ⟨h1, h2, h3, _, _⟩ := supersedePhase_fields ctx b st
  exact ⟨by rw [h1, h2]; exact h.size_eq, by rw [h2]; exact h.sizes_nodup,
    by rw [h3]; exact h.cat_lower⟩

theorem inv2_indexPhase (b : Str) (m : Memory) (st : State) (h : Inv2 st) :
    Inv2 (indexPhase b m st) :=
  ⟨h.size_eq, h.sizes_nodup, h.cat_lower⟩

theorem inv2_updateIndices (m : Memory) (st : State) (h : Inv2 st) :
    Inv2 (updateIndices m st) := by
  refine ⟨h.size_eq, h.sizes_nodup, ?_⟩
  intro k hk c hc
  have hk2 : k ∈ keysA
      (if m.category ≠ [] then addIdUnique st.categoryIndex (toLowerStr m.category) m.id
       else st.categoryIndex) := hk
  by_cases hcat : m.category ≠ []
  · rw [if_pos hcat] at hk2
    rcases mem_keysA_addIdUnique _ _ _ _ hk2 with h1 | h1
    · exact h.cat_lower k h1 c hc
    · subst h1
      exact toLowerStr_no_upper _ c hc
  · rw [if_neg hcat] at hk2
    exact h.cat_lower k hk2 c hc

theorem inv2_savePhase (ctx : Ctx) (m : Memory) (st : State) (h : Inv2 st) :
    Inv2 (savePhase ctx m st).2 := by
  unfold savePhase saveMemoryToFile
  by_cases hsz : ctx.encSize m > ctx.maxFileSize
  · rw [if_pos hsz]
    exact h
  · rw [if_neg hsz]
    refine ⟨?_, nodup_keysA_insertA _ _ _ h.sizes_nodup, h.cat_lower⟩
    show st.totalSize - (getDA st.memorySizes m.id 0 : Nat) + (ctx.encSize m : Nat) =
      (sumVals (insertA st.memorySizes m.id (ctx.encSize m)) : Int)
    have hse := h.size_eq
    cases hl : lookupA st.memorySizes m.id with
    | none =>
      rw [sumVals_insertA_none _ _ _ hl]
      unfold getDA
      rw [hl]
      simp only [Option.getD_none]
      push_cast
      omega
    | some old =>
      have hsum := sumVals_insertA_some st.memorySizes m.id (ctx.encSize m) old hl
        h.sizes_nodup
      unfold getDA
      rw [hl]
      simp only [Option.getD_some]
      have hsum2 : (sumVals (insertA st.memorySizes m.id (ctx.encSize m)) : Int) + old =
          (sumVals st.memorySizes : Int) + ctx.encSize m := by
        exact_mod_cast hsum
      omega

theorem inv2_storeOp (ctx : Ctx) (content summary category : Str) (tags : List Str)
    (metadata : List (Str × Str)) (now : Nat) (st : State) (h : Inv2 st) :
    Inv2 (storeOp ctx content summary category tags metadata now st).2 := by
  rw [storeOp_eq]
  exact inv2_savePhase _ _ _
    (inv2_updateIndices _ _ (inv2_indexPhase _ _ _ (inv2_supersedePhase _ _ _ h)))

theorem inv2_getOp (ctx : Ctx) (id : Str) (now : Nat) (st : State) (h : Inv2 st) :
    Inv2 (getOp ctx id now st).2 := by
  unfold getOp
  cases lookupA st.index id with
  | none => exact h
  | some m => exact ⟨h.size_eq, h.sizes_nodup, h.cat_lower⟩

theorem size_eq_after_erase (st : State) (id : Str) (h : Inv2 st) :
    st.totalSize - (getDA st.memorySizes id 0 : Nat) =
      (sumVals (eraseA st.memorySizes id) : Int) := by
  have hse := h.size_eq
  cases hs : lookupA st.memorySizes id with
  | none =>
    rw [eraseA_of_not_mem]
    · unfold getDA
      rw [hs]
      simp
      omega
    · intro hmem
      rw [mem_keysA_iff, hs] at hmem
      exact Bool.noConfusion hmem
  | some v =>
    have hsum := sumVals_eraseA st.memorySizes id v hs
    unfold getDA
    rw [hs]
    simp only [Option.getD_some]
    have hsum2 : (sumVals st.memorySizes : Int) =
        (v : Int) + (sumVals (eraseA st.memorySizes id) : Int) := by
      exact_mod_cast hsum
    omega

theorem cat_lower_removeFromIndices (m : Memory) (st : State)
    (h : ∀ k ∈ keysA st.categoryIndex, ∀ c ∈ k, isUpper c = false) :
    ∀ k ∈ keysA (removeFromIndices m st).categoryIndex, ∀ c ∈ k, isUpper c = false := by
  intro k hk c hc
  have hk2 : k ∈ keysA
      (if m.category ≠ [] then removeId st.categoryIndex (toLowerStr m.category) m.id
       else st.categoryIndex) := hk
  by_cases hcat : m.category ≠ []
  · rw [if_pos hcat] at hk2
    exact h k (mem_keysA_removeId _ _ _ _ hk2) c hc
  · rw [if_neg hcat] at hk2
    exact h k hk2 c hc

theorem inv2_deleteOp (id : Str) (st : State) (h : Inv2 st) :
    Inv2 (deleteOp id st).2 := by
  unfold deleteOp
  cases lookupA st.index id with
  | none => exact h
  | some m =>
    cases lookupA st.files id with
    | none => exact h
    | some fs =>
      refine ⟨?_, nodup_keysA_eraseA _ _ h.sizes_nodup, ?_⟩
      · exact size_eq_after_erase st id h
      · exact cat_lower_removeFromIndices m _ h.cat_lower

theorem bulkDeleteOne_eq_none (st : State) (id : Str) (count : Nat)
    (h : lookupA st.index id = none) : bulkDeleteOne st id count = (st, count) := by
  unfold bulkDeleteOne
  rw [h]

theorem bulkDeleteOne_eq_some (st : State) (id : Str) (count : Nat) (m : Memory)
    (h : lookupA st.index id = some m) :
    bulkDeleteOne st id count =
      if ¬ hasVs id ∧ m.version > 0 then ({ st with index := eraseA st.index id }, count)
      else (bulkDeleteRecord st id m, count + 1) := by
  unfold bulkDeleteOne
  rw [h]

theorem inv2_bulkDeleteOne (st : State) (id : Str) (count : Nat) (h : Inv2 st) :
    Inv2 (bulkDeleteOne st id count).1 := by
  cases hl : lookupA st.index id with
  | none =>
    rw [bulkDeleteOne_eq_none st id count hl]
    exact h
  | some m =>
    rw [bulkDeleteOne_eq_some st id count m hl]
    by_cases ha : ¬ hasVs id ∧ m.version > 0
    · rw [if_pos ha]
      exact ⟨h.size_eq, h.sizes_nodup, h.cat_lower⟩
    · rw [if_neg ha]
      refine ⟨?_, nodup_keysA_eraseA _ _ h.sizes_nodup, ?_⟩
      · exact size_eq_after_erase st id h
      · exact cat_lower_removeFromIndices m _ h.cat_lower

theorem inv2_bulk_fold (l : List Str) :
    ∀ (st : State) (count : Nat), Inv2 st →
      Inv2 (l.foldl (fun (p : State × Nat) id => bulkDeleteOne p.1 id p.2) (st, count)).1 := by
  induction l with
  | nil =>
    intro st count h
    exact h
  | cons id rest ih =>
    intro st count h
    rw [List.foldl_cons]
    have h2 := inv2_bulkDeleteOne st id count h
    cases hb : bulkDeleteOne st id count with
    | mk st2 count2 =>
      rw [hb] at h2
      exact ih st2 count2 h2

theorem inv2_bulkDeleteOp (opts : BulkDeleteOptions) (st : State) (h : Inv2 st) :
    Inv2 (bulkDeleteOp opts st).2.2 := by
  unfold bulkDeleteOp
  by_cases hcf : !opts.confirm
  · rw [if_pos hcf]
    exact h
  · rw [if_neg hcf]
    by_cases hfil : opts.category = [] ∧ opts.tags = [] ∧ opts.beforeDate = none ∧
        opts.query = []
    · rw [if_pos hfil]
      exact h
    · rw [if_neg hfil]
      have h2 := inv2_bulk_fold (bulkToDelete st (matchedBases opts st)) st 0 h
      exact ⟨h2.size_eq, h2.sizes_nodup, h2.cat_lower⟩

/-- Reachability of a store state through the modelled operations:
synchronous `Store` (in the regime where no retention pass is triggered),
`Get`, `Delete` and `BulkDelete`, starting from the empty store. -/
inductive Reach2 (ctx : Ctx) : State → Prop where
  | empty : Reach2 ctx initState
  | store (st : State) (content summary category : Str) (tags : List Str)
      (metadata : List (Str × Str)) (now : Nat) :
      Reach2 ctx st →
      (storeOp ctx content summary category tags metadata now st).2.totalSize ≤
        ctx.maxStorageSize →
      Reach2 ctx (storeOp ctx content summary category tags metadata now st).2
  | get (st : State) (id : Str) (now : Nat) :
      Reach2 ctx st → Reach2 ctx (getOp ctx id now st).2
  | del (st : State) (id : Str) :
      Reach2 ctx st → Reach2 ctx (deleteOp id st).2
  | bulk (st : State) (opts : BulkDeleteOptions) :
      Reach2 ctx st → Reach2 ctx (bulkDeleteOp opts st).2.2

theorem inv2_reach2 (ctx : Ctx) (st : State) (h : Reach2 ctx st) : Inv2 st := by
  induction h with
  | empty => exact ⟨rfl, List.nodup_nil, by intro k hk; exact absurd hk (List.not_mem_nil k)⟩
  | store st c su cat tg md t _ _ ih => exact inv2_storeOp _ _ _ _ _ _ _ _ ih
  | get st id t _ ih => exact inv2_getOp _ _ _ _ ih
  | del st id _ ih => exact inv2_deleteOp _ _ ih
  | bulk st opts _ ih => exact inv2_bulkDeleteOp _ _ ih

/-! ### C5 — `total_size` accounting (amended). -/

/-- C5 (amended): after every operation (synchronous Store without a
retention pass, Get, Delete, BulkDelete) the `total_size` counter equals the
sum of the sizes recorded in `memorySizes`.  It does **not** always equal the
sum of the actual on-disk file sizes, because `Get` rewrites the record file
with updated access statistics but discards the returned size
(`s.saveMemoryToFile(memory)` with the size ignored), so the recorded size
can go stale; see the counterexample. -/
theorem C5_total_size_accounting (ctx : Ctx) (st : State) (h : Reach2 ctx st) :
    st.totalSize = (sumVals st.memorySizes : Int) :=
  (inv2_reach2 ctx st h).size_eq

/-- Witness for C5 at a concrete input: after one store from the empty
store, `total_size` equals the recorded sum. -/
theorem C5_total_size_accounting_witness :
    storeW1.2.totalSize = (sumVals storeW1.2.memorySizes : Int) :=
  C5_total_size_accounting ctxW storeW1.2
    (Reach2.store initState (str ("a")) [] [] [] [] 1 Reach2.empty (by decide))

/-- A context whose encoded record length grows by one byte when
`access_count` gains a decimal digit, as the JSON encoding does
(`"access_count":9` is one byte shorter than `"access_count":10`). -/
def ctxC5 : Ctx :=
  { genID := fun _ => str ("b16"), encSize := fun m => 100 + (natStr m.accessCount).length,
    maxFileSize := 1000, maxStorageSize := 1000000 }

/-- Ten consecutive `Get` calls on the base alias. -/
def applyGets : Nat → State → State
  | 0, st => st
  | n + 1, st => applyGets n (getOp ctxC5 (str ("b16")) 1 st).2

/-- The C5 counterexample state: one stored record, then ten Gets. -/
def stC5 : State := applyGets 10 (storeOp ctxC5 (str ("a")) [] [] [] [] 1 initState).2

/-- Counterexample to C5 as stated: after the tenth `Get`, the record's file
has been rewritten with `access_count = 10` (102 bytes in this encoding), but
`total_size` is still 101 — `Get` persists the updated statistics without
updating the size accounting, so `total_size` no longer equals the sum of the
actual on-disk byte sizes. -/
theorem C5_counterexample :
    stC5.totalSize = 101 ∧ (sumVals stC5.files : Int) = 102 ∧
      stC5.totalSize ≠ (sumVals stC5.files : Int) := by
  refine ⟨by decide, by decide, by decide⟩

/-! ### C10 — verbatim category lookup against a lower-cased index. -/

theorem candidateSetOpt_empty (st : State) (category : Str) (tags : List Str)
    (hcat : category ≠ []) (hnone : getDA st.categoryIndex category [] = []) :
    candidateSetOpt st category tags = some [] := by
  unfold candidateSetOpt
  simp only [if_pos hcat, hnone]
  by_cases htags : tags ≠ []
  · rw [if_pos htags]
    simp
  · rw [if_neg htags]

/-- C10: the category index is keyed by the lower-cased category, while
`Search` and `List` consult it with the caller's category string verbatim;
for every reachable store and every category filter containing an upper-case
letter, both return the empty list — even when records carry exactly that
category verbatim. -/
theorem C10_category_filter_case (ctx : Ctx) (st : State) (h : Reach2 ctx st)
    (now : Nat) (q : SearchQuery) (c : Char) (hc : c ∈ q.category)
    (hup : isUpper c = true) (tags : List Str) (limit : Nat) :
    searchOp now q st = [] ∧ listOp q.category tags limit st = [] := by
  have hinv := inv2_reach2 ctx st h
  have hnotmem : q.category ∉ keysA st.categoryIndex := by
    intro hmem
    have := hinv.cat_lower q.category hmem c hc
    rw [hup] at this
    exact Bool.noConfusion this
  have hnone : getDA st.categoryIndex q.category [] = [] := by
    unfold getDA
    rw [lookupA_eq_none_of_not_mem _ _ hnotmem]
    rfl
  have hcat : q.category ≠ [] := by
    intro hnil
    rw [hnil] at hc
    exact absurd hc (List.not_mem_nil c)
  constructor
  · unfold searchOp
    rw [candidateSetOpt_empty st q.category q.tags hcat hnone]
    have hfm : st.index.filterMap
        (searchEntryScore now q (toLowerStr q.query) (some [])) = [] := by
      rw [List.filterMap_eq_nil_iff]
      intro e _
      unfold searchEntryScore
      simp
    dsimp only
    rw [hfm]
    have hsn2 : sortByB (fun (a b : Memory × Nat) => decide (b.2 < a.2)) [] = [] := rfl
    rw [hsn2, List.take_nil, List.map_nil]
  · unfold listOp
    rw [candidateSetOpt_empty st q.category tags hcat hnone]
    dsimp only
    rw [List.filterMap_nil]
    have hsn : sortByB (fun (a b : Memory) => decide (b.createdAt < a.createdAt)) [] = [] :=
      rfl
    rw [hsn, List.length_nil, if_neg]
    omega

/-- The C10 witness state: one record stored with the verbatim category
`"Work"` (indexed under `"work"`). -/
def stC10 : State := (storeOp ctxW (str ("a")) [] (str ("Work")) [] [] 1 initState).2

/-- Witness for C10 at a concrete input: searching or listing with the
verbatim filter `"Work"` over a store holding a record with exactly that
category returns nothing. -/
theorem C10_category_filter_case_witness :
    searchOp 1 { query := [], tags := [], category := str ("Work"), limit := 0 } stC10 = [] ∧
    listOp (str ("Work")) [] 0 stC10 = [] :=
  C10_category_filter_case ctxW stC10
    (Reach2.store initState (str ("a")) [] (str ("Work")) [] [] 1 Reach2.empty (by decide))
    1 { query := [], tags := [], category := str ("Work"), limit := 0 }
    'W' (by decide) (by decide) [] 0

/-! ### C3 — the codec pipeline (encode then decode is the identity). -/

/-- Raw byte sequences exchanged by the codec pipeline. -/
abbrev Bytes := List Nat

/-- The codec-relevant configuration flags. -/
structure CodecCfg where
  enableCompression : Bool
  enableEncryption : Bool
  compressionLevel : Nat
  maxFileSize : Nat

/-- Model of the write path of `saveMemoryToFile`: canonical JSON encoding
(`marshal`), then gzip at the configured level when compression is enabled,
then the AEAD encryption (`Crypto.Encrypt`, which prepends the random `nonce`)
when encryption is enabled; fails with *size-limit* when the final byte
length exceeds `MaxFileSize`.  `marshal`, `gzipC` and `sealB` abstract
`encoding/json`, `compress/gzip` and AES-256-GCM, whose own round-trip
contracts enter the theorem below as hypotheses. -/
def encodePipeline (marshal : Memory → Bytes) (gzipC : Nat → Bytes → Bytes)
    (sealB : Bytes → Bytes → Bytes) (cfg : CodecCfg) (nonce : Bytes) (m : Memory) :
    Option Bytes :=
  let data := marshal m
  let fileData := if cfg.enableCompression then gzipC cfg.compressionLevel data else data
  let fileData2 := if cfg.enableEncryption then sealB nonce fileData else fileData
  if fileData2.length > cfg.maxFileSize then none else some fileData2

/-- Model of the read path of `loadIndex`: AEAD open (`Crypto.Decrypt`) when
encryption is enabled, gunzip when the file name carries the `.gz` suffix
(equivalently, when compression is enabled, since the suffix is chosen from
the same flag), then JSON decoding; each stage can fail, and a failure skips
the file. -/
def decodePipeline (unmarshal : Bytes → Option Memory) (gunzip : Bytes → Option Bytes)
    (opened : Bytes → Option Bytes) (cfg : CodecCfg) (fileData : Bytes) :
    Option Memory :=
  match (if cfg.enableEncryption then opened fileData else some fileData) with
  | none => none
  | some data =>
    match (if cfg.enableCompression then gunzip data else some data) with
    | none => none
    | some jsonData => unmarshal jsonData

/-- C3: for every record and every combination of
`enable_compression ∈ {false,true}` and `enable_encryption ∈ {false,true}`
(both quantified through `cfg`), encoding through the pipeline and decoding
the produced bytes yields the original record — given the round-trip
contracts of the three underlying primitives (JSON, gzip, AES-GCM), which
are external library guarantees. -/
theorem C3_codec_roundtrip (marshal : Memory → Bytes) (gzipC : Nat → Bytes → Bytes)
    (sealB : Bytes → Bytes → Bytes) (unmarshal : Bytes → Option Memory)
    (gunzip : Bytes → Option Bytes) (opened : Bytes → Option Bytes)
    (cfg : CodecCfg) (nonce : Bytes) (m : Memory) (bytes : Bytes)
    (hjson : unmarshal (marshal m) = some m)
    (hgzip : gunzip (gzipC cfg.compressionLevel (marshal m)) = some (marshal m))
    (haead : ∀ b : Bytes, opened (sealB nonce b) = some b)
    (henc : encodePipeline marshal gzipC sealB cfg nonce m = some bytes) :
    decodePipeline unmarshal gunzip opened cfg bytes = some m := by
  unfold encodePipeline at henc
  by_cases hsz : (if cfg.enableEncryption then
      sealB nonce (if cfg.enableCompression then gzipC cfg.compressionLevel (marshal m)
        else marshal m)
    else (if cfg.enableCompression then gzipC cfg.compressionLevel (marshal m)
        else marshal m)).length > cfg.maxFileSize
  · rw [if_pos hsz] at henc
    exact Option.noConfusion henc
  · rw [if_neg hsz] at henc
    have hbytes : bytes = (if cfg.enableEncryption then
        sealB nonce (if cfg.enableCompression then gzipC cfg.compressionLevel (marshal m)
          else marshal m)
      else (if cfg.enableCompression then gzipC cfg.compressionLevel (marshal m)
          else marshal m)) := by
      simp at henc
      exact henc.symm
    subst hbytes
    unfold decodePipeline
    cases hE : cfg.enableEncryption with
    | true =>
      cases hC : cfg.enableCompression with
      | true =>
        simp only [hE, hC, if_true, haead, hgzip]
        exact hjson
      | false =>
        simp only [hE, hC, if_true, Bool.false_eq_true, if_false, haead]
        exact hjson
    | false =>
      cases hC : cfg.enableCompression with
      | true =>
        simp only [hE, hC, Bool.false_eq_true, if_false, if_true, hgzip]
        exact hjson
      | false =>
        simp only [hE, hC, Bool.false_eq_true, if_false]
        exact hjson

/-- A concrete record for the codec witness. -/
def memC3 : Memory := newRecord (str ("hello")) [] [] [] [] 7 (str ("b16")) 1 []

/-- Witness for C3 at a concrete input, with both flags enabled and the
primitives instantiated so that their round-trip hypotheses hold
definitionally. -/
theorem C3_codec_roundtrip_witness :
    decodePipeline (fun _ => some memC3) some some
      { enableCompression := true, enableEncryption := true, compressionLevel := 6,
        maxFileSize := 10 } [0] = some memC3 :=
  C3_codec_roundtrip (fun _ => [0]) (fun _ b => b) (fun _ b => b)
    (fun _ => some memC3) some some
    { enableCompression := true, enableEncryption := true, compressionLevel := 6,
      maxFileSize := 10 } [9, 9] memC3 [0] rfl rfl (fun _ => rfl) (by decide)

/-! ### Structural well-formedness of the index (for C1, C6, C7). -/

theorem mem_of_lookupA {α : Type} {l : List (Str × α)} {k : Str} {v : α}
    (h : lookupA l k = some v) : (k, v) ∈ l := by
  induction l with
  | nil => exact Option.noConfusion h
  | cons e rest ih =>
    rw [lookupA_cons] at h
    by_cases he : e.1 = k
    · rw [if_pos he] at h
      simp at h
      cases e with
      | mk a bv =>
        simp at he h
        subst he
        subst h
        exact List.mem_cons_self _ _
    · rw [if_neg he] at h
      exact List.mem_cons_of_mem e (ih h)

theorem lookupA_of_mem_nodup {α : Type} {l : List (Str × α)} {e : Str × α}
    (hn : (keysA l).Nodup) (h : e ∈ l) : lookupA l e.1 = some e.2 := by
  induction l with
  | nil => exact absurd h (List.not_mem_nil e)
  | cons e2 rest ih =>
    have hnd : e2.1 ∉ List.map Prod.fst rest ∧ (List.map Prod.fst rest).Nodup := by
      have h2 : (e2.1 :: List.map Prod.fst rest).Nodup := hn
      exact List.nodup_cons.mp h2
    rcases List.mem_cons.mp h with h1 | h1
    · subst h1
      rw [lookupA_cons, if_pos rfl]
    · rw [lookupA_cons]
      have hne : ¬ (e2.1 = e.1) := by
        intro hc
        refine hnd.1 ?_
        rw [hc]
        exact List.mem_map_of_mem Prod.fst h1
      rw [if_neg hne]
      exact ih hnd.2 h1

theorem mem_insertA {α : Type} {l : List (Str × α)} {k : Str} {v : α} {e : Str × α}
    (h : e ∈ insertA l k v) : e = (k, v) ∨ e ∈ l := by
  induction l with
  | nil =>
    rw [insertA_nil] at h
    simp at h
    exact Or.inl h
  | cons e2 rest ih =>
    rw [insertA_cons] at h
    by_cases he : e2.1 = k
    · rw [if_pos he] at h
      rcases List.mem_cons.mp h with h1 | h1
      · exact Or.inl h1
      · exact Or.inr (List.mem_cons_of_mem e2 h1)
    · rw [if_neg he] at h
      rcases List.mem_cons.mp h with h1 | h1
      · exact Or.inr (List.mem_cons.mpr (Or.inl h1))
      · rcases ih h1 with h2 | h2
        · exact Or.inl h2
        · exact Or.inr (List.mem_cons_of_mem e2 h2)

theorem lookupA_mapById (f : Memory → Memory) (tid : Str) (l : List (Str × Memory))
    (k : Str) :
    lookupA (mapById f tid l) k =
      (lookupA l k).map (fun mm => if mm.id = tid then f mm else mm) := by
  induction l with
  | nil => rfl
  | cons e rest ih =>
    show lookupA ((e.1, if e.2.id = tid then f e.2 else e.2) :: mapById f tid rest) k = _
    rw [lookupA_cons, lookupA_cons]
    by_cases he : e.1 = k
    · rw [if_pos he, if_pos he]
      rfl
    · rw [if_neg he, if_neg he]
      exact ih

theorem keysA_mapById (f : Memory → Memory) (tid : Str) (l : List (Str × Memory)) :
    keysA (mapById f tid l) = keysA l := by
  unfold keysA mapById
  rw [List.map_map]
  rfl

theorem mem_dedupStr_aux (l : List Str) :
    ∀ acc x, x ∈ l.foldl (fun acc s => if s ∈ acc then acc else acc ++ [s]) acc ↔
      x ∈ acc ∨ x ∈ l := by
  induction l with
  | nil =>
    intro acc x
    simp
  | cons s rest ih =>
    intro acc x
    rw [List.foldl_cons]
    by_cases hs : s ∈ acc
    · rw [if_pos hs, ih]
      constructor
      · intro h
        rcases h with h | h
        · exact Or.inl h
        · exact Or.inr (List.mem_cons_of_mem s h)
      · intro h
        rcases h with h | h
        · exact Or.inl h
        · rcases List.mem_cons.mp h with h1 | h1
          · subst h1
            exact Or.inl hs
          · exact Or.inr h1
    · rw [if_neg hs, ih]
      constructor
      · intro h
        rcases h with h | h
        · rcases List.mem_append.mp h with h1 | h1
          · exact Or.inl h1
          · simp at h1
            subst h1
            exact Or.inr (List.mem_cons_self x rest)
        · exact Or.inr (List.mem_cons_of_mem s h)
      · intro h
        rcases h with h | h
        · exact Or.inl (List.mem_append.mpr (Or.inl h))
        · rcases List.mem_cons.mp h with h1 | h1
          · subst h1
            exact Or.inl (List.mem_append.mpr (Or.inr (List.mem_cons_self x [])))
          · exact Or.inr h1

theorem mem_dedupStr (l : List Str) (x : Str) : x ∈ dedupStr l ↔ x ∈ l := by
  unfold dedupStr
  rw [mem_dedupStr_aux]
  simp

/-- Structural description of one version chain: the version-index entry of
`b` lists exactly the versioned ids `b-v1 … b-vK` in order, each present in
the primary index with matching id and version and with only the last
current, and the base alias points at the last record. -/
structure ChainWF (index : List (Str × Memory)) (b : Str) (vids : List Str) : Prop where
  base_no_vs : hasVs b = false
  vids_ne_nil : vids ≠ []
  vids_eq : vids = (List.range vids.length).map (fun i => vid b (i + 1))
  recs : ∀ i, i < vids.length →
    ∃ m, lookupA index (vid b (i + 1)) = some m ∧ m.id = vid b (i + 1) ∧
      m.version = i + 1 ∧ (m.isCurrentVersion = true ↔ i + 1 = vids.length)
  alias_entry : ∃ m, lookupA index b = some m ∧
    lookupA index (vid b vids.length) = some m

/-- Well-formedness of the primary and version indices in every state
reachable through `Store` and `Get`: keys are unique, every version-index
entry is a well-formed chain, and every primary-index entry is either a
chain member (keys containing `"-v"`) or a chain's base alias (keys
without). -/
structure WF (st : State) : Prop where
  keys_nodup : (keysA st.index).Nodup
  vkeys_nodup : (keysA st.versionIndex).Nodup
  chains : ∀ b vids, lookupA st.versionIndex b = some vids → ChainWF st.index b vids
  complete : ∀ e ∈ st.index,
    (hasVs e.1 = false → (lookupA st.versionIndex e.1).isSome = true) ∧
    (hasVs e.1 = true → ∃ vids, lookupA st.versionIndex (stripVs e.1) = some vids ∧
      e.1 ∈ vids)

/-- Transfer a chain across an index change that preserves the lookups at
the chain's keys. -/
theorem ChainWF.transfer {index index2 : List (Str × Memory)} {b : Str} {vids : List Str}
    (hc : ChainWF index b vids)
    (hrec : ∀ i, i < vids.length →
      lookupA index2 (vid b (i + 1)) = lookupA index (vid b (i + 1)))
    (hb : lookupA index2 b = lookupA index b) : ChainWF index2 b vids := by
  refine ⟨hc.base_no_vs, hc.vids_ne_nil, hc.vids_eq, ?_, ?_⟩
  · intro i hi
    obtain ⟨m, hm⟩ := hc.recs i hi
    exact ⟨m, by rw [hrec i hi]; exact hm.1, hm.2.1, hm.2.2.1, hm.2.2.2⟩
  · obtain ⟨m, hm1, hm2⟩ := hc.alias_entry
    have hlen : vids.length - 1 < vids.length := by
      have h0 : vids.length ≠ 0 := by
        intro h0
        exact hc.vids_ne_nil (List.eq_nil_of_length_eq_zero h0)
      omega
    refine ⟨m, by rw [hb]; exact hm1, ?_⟩
    have := hrec (vids.length - 1) hlen
    have hlen2 : vids.length - 1 + 1 = vids.length := by omega
    rw [hlen2] at this
    rw [this]
    exact hm2

theorem vid_mem_chain {b : Str} {vids : List Str} {k : Str}
    (heq : vids = (List.range vids.length).map (fun i => vid b (i + 1)))
    (hk : k ∈ vids) : ∃ i, i < vids.length ∧ k = vid b (i + 1) := by
  rw [heq] at hk
  obtain ⟨i, hi, hik⟩ := List.mem_map.mp hk
  exact ⟨i, by simpa using List.mem_range.mp hi, hik.symm⟩

/-- Under well-formedness, the base alias of a chain is the chain's current
record: `existing.id = b-vK`, `existing.version = K`, and it is current. -/
theorem wf_alias_value {st : State} (hw : WF st) {b : Str} {vids : List Str}
    (hvi : lookupA st.versionIndex b = some vids) {m : Memory}
    (hm : lookupA st.index b = some m) :
    m.id = vid b vids.length ∧ m.version = vids.length ∧ m.isCurrentVersion = true := by
  have hc := hw.chains b vids hvi
  obtain ⟨ma, ha1, ha2⟩ := hc.alias_entry
  have hma : m = ma := by
    rw [hm] at ha1
    exact Option.some.inj ha1
  have hlen : vids.length - 1 < vids.length := by
    have h0 : vids.length ≠ 0 := by
      intro h0
      exact hc.vids_ne_nil (List.eq_nil_of_length_eq_zero h0)
    omega
  obtain ⟨mk, hk1, hk2, hk3, hk4⟩ := hc.recs (vids.length - 1) hlen
  have hlen2 : vids.length - 1 + 1 = vids.length := by omega
  rw [hlen2] at hk1 hk3 hk4
  have hmk : mk = ma := by
    rw [ha2] at hk1
    simp at hk1
    exact hk1.symm
  subst hmk
  subst hma
  rw [hlen2] at hk2
  exact ⟨hk2, hk3, hk4.mpr rfl⟩

theorem WF_of_eq {st st2 : State} (h : WF st) (hi : st2.index = st.index)
    (hv : st2.versionIndex = st.versionIndex) : WF st2 := by
  refine ⟨by rw [hi]; exact h.keys_nodup, by rw [hv]; exact h.vkeys_nodup, ?_, ?_⟩
  · intro b vids hb
    rw [hv] at hb
    have := h.chains b vids hb
    exact this.transfer (fun i _ => by rw [hi]) (by rw [hi])
  · intro e he
    rw [hi] at he
    have := h.complete e he
    exact ⟨fun hf => by rw [hv]; exact this.1 hf, fun ht => by rw [hv]; exact this.2 ht⟩

theorem savePhase_proj (ctx : Ctx) (m : Memory) (st : State) :
    (savePhase ctx m st).2.index = st.index ∧
    (savePhase ctx m st).2.versionIndex = st.versionIndex := by
  unfold savePhase saveMemoryToFile
  by_cases hsz : ctx.encSize m > ctx.maxFileSize
  · rw [if_pos hsz]
    exact ⟨rfl, rfl⟩
  · rw [if_neg hsz]
    exact ⟨rfl, rfl⟩

theorem supersedePhase_none_proj (ctx : Ctx) {st : State} {b : Str}
    (h : lookupA st.index b = none) : supersedePhase ctx b st = ([], 1, st) := by
  unfold supersedePhase
  rw [h]

theorem supersedePhase_noncur_proj (ctx : Ctx) {st : State} {b : Str} {ex : Memory}
    (h : lookupA st.index b = some ex) (hcur : ex.isCurrentVersion = false) :
    supersedePhase ctx b st = ([], 1, st) := by
  unfold supersedePhase
  rw [h]
  simp only [hcur, Bool.false_eq_true, if_false]

theorem supersedePhase_some_proj (ctx : Ctx) {st : State} {b : Str} {ex : Memory}
    (h : lookupA st.index b = some ex) (hcur : ex.isCurrentVersion = true) :
    (supersedePhase ctx b st).1 = ex.id ∧
    (supersedePhase ctx b st).2.1 = ex.version + 1 ∧
    (supersedePhase ctx b st).2.2.index =
      mapById (fun m => { m with isCurrentVersion := false }) ex.id st.index ∧
    (supersedePhase ctx b st).2.2.versionIndex = st.versionIndex := by
  unfold supersedePhase
  rw [h]
  simp only [hcur, if_true]
  refine ⟨?_, ?_, ?_, ?_⟩ <;> trivial

/-- A versioned id strictly above a chain's last version is absent from the
primary index. -/
theorem wf_fresh_vid {st : State} (hw : WF st) {b : Str} {n : Nat}
    (hvi : ∀ vids, lookupA st.versionIndex b = some vids → vids.length < n) :
    vid b n ∉ keysA st.index := by
  intro hmem
  rw [mem_keysA_iff] at hmem
  cases hl : lookupA st.index (vid b n) with
  | none => rw [hl] at hmem; exact Bool.noConfusion hmem
  | some v =>
    have hent := mem_of_lookupA hl
    obtain ⟨vids2, hv2, hmem2⟩ := (hw.complete _ hent).2 (hasVs_vid b n)
    rw [stripVs_vid] at hv2
    have hlt := hvi vids2 hv2
    have hc := hw.chains b vids2 hv2
    obtain ⟨i, hi, hik⟩ := vid_mem_chain hc.vids_eq hmem2
    have := (vid_inj hik).2
    omega

/-- Well-formedness is preserved by an in-place value update that keeps
`id`, `version` and `is_current_version` (the access-statistics bump of
`Get`). -/
theorem wf_mapById_preserving (st : State) (hw : WF st) (f : Memory → Memory)
    (tid : Str)
    (hid : ∀ m, (f m).id = m.id) (hver : ∀ m, (f m).version = m.version)
    (hcur : ∀ m, (f m).isCurrentVersion = m.isCurrentVersion)
    (st2 : State) (hi : st2.index = mapById f tid st.index)
    (hv : st2.versionIndex = st.versionIndex) : WF st2 := by
  have hg : ∀ (mm : Memory), ((if mm.id = tid then f mm else mm)).id = mm.id := by
    intro mm
    by_cases hc : mm.id = tid
    · rw [if_pos hc]
      exact hid mm
    · rw [if_neg hc]
  have hgver : ∀ (mm : Memory), ((if mm.id = tid then f mm else mm)).version = mm.version := by
    intro mm
    by_cases hc : mm.id = tid
    · rw [if_pos hc]
      exact hver mm
    · rw [if_neg hc]
  have hgcur : ∀ (mm : Memory),
      ((if mm.id = tid then f mm else mm)).isCurrentVersion = mm.isCurrentVersion := by
    intro mm
    by_cases hc : mm.id = tid
    · rw [if_pos hc]
      exact hcur mm
    · rw [if_neg hc]
  refine ⟨?_, by rw [hv]; exact hw.vkeys_nodup, ?_, ?_⟩
  · rw [hi]
    have := keysA_mapById f tid st.index
    rw [this]
    exact hw.keys_nodup
  · intro b vids hb
    rw [hv] at hb
    have hc := hw.chains b vids hb
    refine ⟨hc.base_no_vs, hc.vids_ne_nil, hc.vids_eq, ?_, ?_⟩
    · intro i hilt
      obtain ⟨m, hm1, hm2, hm3, hm4⟩ := hc.recs i hilt
      refine ⟨if m.id = tid then f m else m, ?_, ?_, ?_, ?_⟩
      · rw [hi, lookupA_mapById, hm1]
        rfl
      · rw [hg, hm2]
      · rw [hgver, hm3]
      · rw [hgcur]
        exact hm4
    · obtain ⟨m, hm1, hm2⟩ := hc.alias_entry
      refine ⟨if m.id = tid then f m else m, ?_, ?_⟩
      · rw [hi, lookupA_mapById, hm1]
        rfl
      · rw [hi, lookupA_mapById, hm2]
        rfl
  · intro e he
    rw [hi] at he
    have hkey : e.1 ∈ keysA st.index := by
      have := List.mem_map_of_mem Prod.fst he
      have hkm := keysA_mapById f tid st.index
      unfold keysA at hkm
      rw [hkm] at this
      exact this
    rw [mem_keysA_iff] at hkey
    cases hl : lookupA st.index e.1 with
    | none => rw [hl] at hkey; exact Bool.noConfusion hkey
    | some v =>
      have hent := mem_of_lookupA hl
      have hco := hw.complete _ hent
      exact ⟨fun hf => by rw [hv]; exact hco.1 hf, fun ht => by rw [hv]; exact hco.2 ht⟩

theorem wf_getOp (ctx : Ctx) (id : Str) (now : Nat) (st : State) (hw : WF st) :
    WF (getOp ctx id now st).2 := by
  unfold getOp
  cases hl : lookupA st.index id with
  | none => exact hw
  | some m0 =>
    exact wf_mapById_preserving st hw
      (fun m => { m with accessCount := m.accessCount + 1, lastAccess := now }) m0.id
      (fun m => rfl) (fun m => rfl) (fun m => rfl) _ rfl rfl

/-- Inserting a brand-new base (version 1) preserves well-formedness. -/
theorem wf_insert_fresh_chain (st : State) (hw : WF st) (b : Str)
    (hb : hasVs b = false) (hlook : lookupA st.index b = none)
    (m : Memory) (hmid : m.id = vid b 1) (hmver : m.version = 1)
    (hmcur : m.isCurrentVersion = true) (st2 : State)
    (hi : st2.index = insertA (insertA st.index (vid b 1) m) b m)
    (hv : st2.versionIndex =
      insertA st.versionIndex b (getDA st.versionIndex b [] ++ [vid b 1])) : WF st2 := by
  have hvib : lookupA st.versionIndex b = none := by
    cases hvv : lookupA st.versionIndex b with
    | none => rfl
    | some vids =>
      obtain ⟨ma, hma1, _⟩ := (hw.chains b vids hvv).alias_entry
      rw [hlook] at hma1
      exact Option.noConfusion hma1
  have hgd : getDA st.versionIndex b [] = [] := by
    unfold getDA
    rw [hvib]
    rfl
  rw [hgd] at hv
  rw [List.nil_append] at hv
  have hvb1 : vid b 1 ≠ b := vid_ne_of_no_vs hb
  refine ⟨?_, ?_, ?_, ?_⟩
  · rw [hi]
    exact nodup_keysA_insertA _ _ _ (nodup_keysA_insertA _ _ _ hw.keys_nodup)
  · rw [hv]
    exact nodup_keysA_insertA _ _ _ hw.vkeys_nodup
  · intro b2 vids2 hlv
    rw [hv] at hlv
    by_cases hbb : b2 = b
    · subst hbb
      rw [lookupA_insertA_self] at hlv
      have hveq : [vid b2 1] = vids2 := Option.some.inj hlv
      rw [← hveq]
      refine ⟨hb, by simp, ?_, ?_, ?_⟩
      · show [vid b2 1] = (List.range 1).map fun i => vid b2 (i + 1)
        rw [List.range_succ, List.range_zero]
        rfl
      · intro i hi2
        have hi0 : i = 0 := by
          simp at hi2
          omega
        subst hi0
        refine ⟨m, ?_, hmid, hmver, ?_⟩
        · rw [hi, lookupA_insertA_ne _ _ _ _ hvb1, lookupA_insertA_self]
        · rw [hmcur]
          simp
      · refine ⟨m, ?_, ?_⟩
        · rw [hi]
          exact lookupA_insertA_self _ _ _
        · show lookupA st2.index (vid b2 1) = some m
          rw [hi, lookupA_insertA_ne _ _ _ _ hvb1, lookupA_insertA_self]
    · rw [lookupA_insertA_ne _ _ _ _ hbb] at hlv
      have hc := hw.chains b2 vids2 hlv
      refine hc.transfer ?_ ?_
      · intro i hi2
        rw [hi, lookupA_insertA_ne _ _ _ _ (vid_ne_of_no_vs hb),
          lookupA_insertA_ne]
        intro hcv
        exact hbb (vid_inj hcv).1
      · rw [hi, lookupA_insertA_ne _ _ _ _ hbb,
          lookupA_insertA_ne _ _ _ _ (Ne.symm (vid_ne_of_no_vs hc.base_no_vs))]
  · intro e he
    rw [hi] at he
    rcases mem_insertA he with h1 | h1
    · subst h1
      refine ⟨fun _ => ?_, fun ht => ?_⟩
      · rw [hv]
        show (lookupA (insertA st.versionIndex b [vid b 1]) b).isSome = true
        rw [lookupA_insertA_self]
        rfl
      · exfalso
        have : hasVs b = true := ht
        rw [hb] at this
        exact Bool.noConfusion this
    · rcases mem_insertA h1 with h2 | h2
      · subst h2
        refine ⟨fun hf => ?_, fun _ => ?_⟩
        · exfalso
          have : hasVs (vid b 1) = false := hf
          rw [hasVs_vid] at this
          exact Bool.noConfusion this
        · refine ⟨[vid b 1], ?_, ?_⟩
          · rw [hv]
            show lookupA (insertA st.versionIndex b [vid b 1]) (stripVs (vid b 1)) = _
            rw [stripVs_vid]
            exact lookupA_insertA_self _ _ _
          · show vid b 1 ∈ [vid b 1]
            exact List.mem_cons_self _ _
      · have hco := hw.complete e h2
        refine ⟨fun hf => ?_, fun ht => ?_⟩
        · have hs := hco.1 hf
          rw [hv]
          by_cases heb : e.1 = b
          · rw [heb, lookupA_insertA_self]
            rfl
          · rw [lookupA_insertA_ne _ _ _ _ heb]
            exact hs
        · obtain ⟨vids2, hv2, hm2⟩ := hco.2 ht
          have hsb : stripVs e.1 ≠ b := by
            intro hcc
            rw [hcc, hvib] at hv2
            exact Option.noConfusion hv2
          rw [hv]
          exact ⟨vids2, by rw [lookupA_insertA_ne _ _ _ _ hsb]; exact hv2, hm2⟩

/-- Superseding an existing base (marking the old record non-current and
appending version K+1) preserves well-formedness. -/
theorem wf_insert_next_version (st : State) (hw : WF st) (b : Str)
    (hb : hasVs b = false) {ex : Memory} (hlook : lookupA st.index b = some ex)
    {vids : List Str} (hvi : lookupA st.versionIndex b = some vids)
    (m : Memory) (hmid : m.id = vid b (vids.length + 1))
    (hmver : m.version = vids.length + 1) (hmcur : m.isCurrentVersion = true)
    (st2 : State)
    (hi : st2.index = insertA (insertA
      (mapById (fun mm => { mm with isCurrentVersion := false }) ex.id st.index)
      (vid b (vids.length + 1)) m) b m)
    (hv : st2.versionIndex =
      insertA st.versionIndex b
        (getDA st.versionIndex b [] ++ [vid b (vids.length + 1)])) : WF st2 := by
  have hchain := hw.chains b vids hvi
  have hal := wf_alias_value hw hvi hlook
  have hgd : getDA st.versionIndex b [] = vids := by
    unfold getDA
    rw [hvi]
    rfl
  rw [hgd] at hv
  have hgn : ∀ (mm : Memory),
      ((if mm.id = ex.id then { mm with isCurrentVersion := false } else mm)).id
        = mm.id := by
    intro mm
    by_cases hc : mm.id = ex.id
    · rw [if_pos hc]
    · rw [if_neg hc]
  have hgv : ∀ (mm : Memory),
      ((if mm.id = ex.id then { mm with isCurrentVersion := false } else mm)).version
        = mm.version := by
    intro mm
    by_cases hc : mm.id = ex.id
    · rw [if_pos hc]
    · rw [if_neg hc]
  have hvbK1 : vid b (vids.length + 1) ≠ b := vid_ne_of_no_vs hb
  refine ⟨?_, ?_, ?_, ?_⟩
  · rw [hi]
    refine nodup_keysA_insertA _ _ _ (nodup_keysA_insertA _ _ _ ?_)
    rw [keysA_mapById]
    exact hw.keys_nodup
  · rw [hv]
    exact nodup_keysA_insertA _ _ _ hw.vkeys_nodup
  · intro b2 vids2 hlv
    rw [hv] at hlv
    by_cases hbb : b2 = b
    · subst hbb
      rw [lookupA_insertA_self] at hlv
      have hveq : vids ++ [vid b2 (vids.length + 1)] = vids2 := Option.some.inj hlv
      rw [← hveq]
      have hlen : (vids ++ [vid b2 (vids.length + 1)]).length = vids.length + 1 := by
        simp
      refine ⟨hb, by simp, ?_, ?_, ?_⟩
      · rw [hlen, List.range_succ, List.map_append]
        rw [← hchain.vids_eq]
        rfl
      · intro i hi2
        rw [hlen] at hi2 ⊢
        by_cases hik : i < vids.length
        · obtain ⟨mi, hm1, hm2, hm3, hm4⟩ := hchain.recs i hik
          have hne1 : vid b2 (i + 1) ≠ b2 := vid_ne_of_no_vs hb
          have hne2 : vid b2 (i + 1) ≠ vid b2 (vids.length + 1) := by
            intro hcv
            have := (vid_inj hcv).2
            omega
          refine ⟨if mi.id = ex.id then { mi with isCurrentVersion := false } else mi,
            ?_, ?_, ?_, ?_⟩
          · rw [hi, lookupA_insertA_ne _ _ _ _ hne1, lookupA_insertA_ne _ _ _ _ hne2,
              lookupA_mapById, hm1]
            rfl
          · rw [hgn, hm2]
          · rw [hgv, hm3]
          · by_cases hiK : i + 1 = vids.length
            · have hcond : mi.id = ex.id := by
                rw [hm2, hal.1, hiK]
              rw [if_pos hcond]
              exact iff_of_false (by simp) (by omega)
            · have hcond : ¬ (mi.id = ex.id) := by
                intro hcc
                rw [hm2, hal.1] at hcc
                exact hiK (vid_inj hcc).2
              rw [if_neg hcond]
              have hfalse : mi.isCurrentVersion = false := by
                cases hcv : mi.isCurrentVersion with
                | true => exact absurd (hm4.mp hcv) hiK
                | false => rfl
              rw [hfalse]
              exact iff_of_false (by simp) (by omega)
        · have hieq : i = vids.length := by omega
          subst hieq
          refine ⟨m, ?_, hmid, hmver, ?_⟩
          · rw [hi, lookupA_insertA_ne _ _ _ _ hvbK1, lookupA_insertA_self]
          · rw [hmcur]
            simp
      · refine ⟨m, ?_, ?_⟩
        · rw [hi]
          exact lookupA_insertA_self _ _ _
        · rw [hlen]
          rw [hi, lookupA_insertA_ne _ _ _ _ hvbK1, lookupA_insertA_self]
    · rw [lookupA_insertA_ne _ _ _ _ hbb] at hlv
      have hc2 := hw.chains b2 vids2 hlv
      obtain ⟨ma, hma1, hma2⟩ := hc2.alias_entry
      have hmaid := (wf_alias_value hw hlv hma1).1
      refine hc2.transfer ?_ ?_
      · intro i hi2
        obtain ⟨mi, hm1, hm2, _, _⟩ := hc2.recs i hi2
        have hne1 : vid b2 (i + 1) ≠ b := vid_ne_of_no_vs hb
        have hne2 : vid b2 (i + 1) ≠ vid b (vids.length + 1) := by
          intro hcv
          exact hbb (vid_inj hcv).1
        have hcond : ¬ (mi.id = ex.id) := by
          intro hcc
          rw [hm2, hal.1] at hcc
          exact hbb (vid_inj hcc).1
        rw [hi, lookupA_insertA_ne _ _ _ _ hne1, lookupA_insertA_ne _ _ _ _ hne2,
          lookupA_mapById, hm1]
        show some (if mi.id = ex.id then { mi with isCurrentVersion := false }
          else mi) = some mi
        rw [if_neg hcond]
      · have hne1 : b2 ≠ b := hbb
        have hne2 : b2 ≠ vid b (vids.length + 1) :=
          Ne.symm (vid_ne_of_no_vs hc2.base_no_vs)
        have hcond : ¬ (ma.id = ex.id) := by
          intro hcc
          rw [hmaid, hal.1] at hcc
          exact hbb (vid_inj hcc).1
        rw [hi, lookupA_insertA_ne _ _ _ _ hne1, lookupA_insertA_ne _ _ _ _ hne2,
          lookupA_mapById, hma1]
        show some (if ma.id = ex.id then { ma with isCurrentVersion := false }
          else ma) = some ma
        rw [if_neg hcond]
  · intro e he
    rw [hi] at he
    rcases mem_insertA he with h1 | h1
    · subst h1
      refine ⟨fun _ => ?_, fun ht => ?_⟩
      · rw [hv]
        show (lookupA (insertA st.versionIndex b _) b).isSome = true
        rw [lookupA_insertA_self]
        rfl
      · exfalso
        have hth : hasVs b = true := ht
        rw [hb] at hth
        exact Bool.noConfusion hth
    · rcases mem_insertA h1 with h2 | h2
      · subst h2
        refine ⟨fun hf => ?_, fun _ => ?_⟩
        · exfalso
          have hfh : hasVs (vid b (vids.length + 1)) = false := hf
          rw [hasVs_vid] at hfh
          exact Bool.noConfusion hfh
        · refine ⟨vids ++ [vid b (vids.length + 1)], ?_, ?_⟩
          · rw [hv]
            show lookupA (insertA st.versionIndex b _)
              (stripVs (vid b (vids.length + 1))) = _
            rw [stripVs_vid]
            exact lookupA_insertA_self _ _ _
          · show vid b (vids.length + 1) ∈ _
            exact List.mem_append.mpr (Or.inr (List.mem_cons_self _ _))
      · have hkey : e.1 ∈ keysA st.index := by
          have hmm := List.mem_map_of_mem Prod.fst h2
          have hkm := keysA_mapById
            (fun mm => { mm with isCurrentVersion := false }) ex.id st.index
          unfold keysA at hkm
          rw [hkm] at hmm
          exact hmm
        rw [mem_keysA_iff] at hkey
        cases hl : lookupA st.index e.1 with
        | none =>
          rw [hl] at hkey
          exact Bool.noConfusion hkey
        | some v =>
          have hco := hw.complete _ (mem_of_lookupA hl)
          refine ⟨fun hf => ?_, fun ht => ?_⟩
          · have hs := hco.1 hf
            rw [hv]
            by_cases heb : e.1 = b
            · rw [heb, lookupA_insertA_self]
              rfl
            · rw [lookupA_insertA_ne _ _ _ _ heb]
              exact hs
          · obtain ⟨vids3, hv3, hm3⟩ := hco.2 ht
            rw [hv]
            by_cases heb : stripVs e.1 = b
            · rw [heb] at hv3
              rw [hvi] at hv3
              have hveq3 : vids = vids3 := Option.some.inj hv3
              refine ⟨vids ++ [vid b (vids.length + 1)], ?_, ?_⟩
              · rw [heb]
                exact lookupA_insertA_self _ _ _
              · exact List.mem_append.mpr (Or.inl (hveq3 ▸ hm3))
            · exact ⟨vids3, by rw [lookupA_insertA_ne _ _ _ _ heb]; exact hv3, hm3⟩

/-- `Store` preserves the well-formedness invariant (for a content hash that
itself contains no `"-v"`). -/
theorem wf_storeOp (ctx : Ctx) (content summary category : Str) (tags : List Str)
    (metadata : List (Str × Str)) (now : Nat) (st : State) (hw : WF st)
    (hbv : hasVs (ctx.genID content) = false) :
    WF (storeOp ctx content summary category tags metadata now st).2 := by
  rw [storeOp_eq]
  obtain ⟨hsi, hsv⟩ := savePhase_proj ctx _ _
  refine WF_of_eq ?_ hsi hsv
  refine WF_of_eq ?_ (updateIndices_index _ _) rfl
  generalize hgen : ctx.genID content = b at hbv ⊢
  cases hlook : lookupA st.index b with
  | none =>
    have hsup := supersedePhase_none_proj ctx hlook
    rw [hsup]
    exact wf_insert_fresh_chain st hw b hbv hlook
      (newRecord content summary category tags metadata now b 1 [])
      rfl rfl rfl _ rfl rfl
  | some ex =>
    have hvis : (lookupA st.versionIndex b).isSome = true :=
      (hw.complete _ (mem_of_lookupA hlook)).1 hbv
    cases hvi : lookupA st.versionIndex b with
    | none =>
      rw [hvi] at hvis
      exact Bool.noConfusion hvis
    | some vids =>
      have hal := wf_alias_value hw hvi hlook
      by_cases hcur : ex.isCurrentVersion = true
      · obtain ⟨hp1, hp2, hp3, hp4⟩ := supersedePhase_some_proj ctx hlook hcur
        have hMid : (newRecord content summary category tags metadata now b
            (supersedePhase ctx b st).2.1 (supersedePhase ctx b st).1).id =
            vid b (vids.length + 1) := by
          show vid b (supersedePhase ctx b st).2.1 = _
          rw [hp2, hal.2.1]
        have hMver : (newRecord content summary category tags metadata now b
            (supersedePhase ctx b st).2.1 (supersedePhase ctx b st).1).version =
            vids.length + 1 := by
          show (supersedePhase ctx b st).2.1 = _
          rw [hp2, hal.2.1]
        refine wf_insert_next_version st hw b hbv hlook hvi _ hMid hMver rfl _ ?_ ?_
        · rw [indexPhase_index, hMid, hp3]
        · show insertA (supersedePhase ctx b st).2.2.versionIndex b
            (getDA (supersedePhase ctx b st).2.2.versionIndex b [] ++ [_]) = _
          rw [hp4, hMid]
      · exact absurd hal.2.2 hcur

/-! ### C1 — exactly one current version per base (amended). -/

/-- States reachable through `Store` (on content hashes free of `"-v"`) and
`Get` — the operations that maintain the version-chain shape. -/
inductive Reach1 (ctx : Ctx) : State → Prop where
  | empty : Reach1 ctx initState
  | store (st : State) (content summary category : Str) (tags : List Str)
      (metadata : List (Str × Str)) (now : Nat) :
      Reach1 ctx st → hasVs (ctx.genID content) = false →
      Reach1 ctx (storeOp ctx content summary category tags metadata now st).2
  | get (st : State) (id : Str) (now : Nat) :
      Reach1 ctx st → Reach1 ctx (getOp ctx id now st).2

theorem wf_init : WF initState := by
  refine ⟨List.nodup_nil, List.nodup_nil, ?_, ?_⟩
  · intro b vids hbv
    exact Option.noConfusion hbv
  · intro e he
    exact absurd he (List.not_mem_nil e)

theorem wf_reach1 (ctx : Ctx) (st : State) (h : Reach1 ctx st) : WF st := by
  induction h with
  | empty => exact wf_init
  | store st c su cat tg md t _ hbv ih => exact wf_storeOp ctx c su cat tg md t st ih hbv
  | get st id t _ ih => exact wf_getOp ctx id t st ih

theorem countP_le_one_of_same_key {l : List (Str × Memory)}
    (hn : (keysA l).Nodup) (p : Str × Memory → Bool) (k : Str)
    (hp : ∀ e ∈ l, p e = true → e.1 = k) : l.countP p ≤ 1 := by
  induction l with
  | nil => simp
  | cons e rest ih =>
    have hnd : e.1 ∉ List.map Prod.fst rest ∧ (List.map Prod.fst rest).Nodup := by
      have h2 : (e.1 :: List.map Prod.fst rest).Nodup := hn
      exact List.nodup_cons.mp h2
    rw [List.countP_cons]
    by_cases hpe : p e = true
    · have hz : rest.countP p = 0 := by
        rw [List.countP_eq_zero]
        intro e2 he2 hpe2
        have h1 := hp e (List.mem_cons_self e rest) hpe
        have h2 := hp e2 (List.mem_cons_of_mem e he2) hpe2
        refine hnd.1 ?_
        rw [h1, ← h2]
        exact List.mem_map_of_mem Prod.fst he2
      rw [hz, if_pos hpe]
    · have hih := ih hnd.2 (fun e2 he2 => hp e2 (List.mem_cons_of_mem e he2))
      rw [if_neg hpe]
      omega

/-- C1 (amended): in every state reachable through `Store` and `Get`, each
base present in the version index has exactly one current record (counting
records by their versioned ids).  As originally stated — closure under
`Delete` as well — the claim fails: deleting the current version of a base
with older superseded versions remaining leaves the base with no current
record, since no predecessor is promoted (see the counterexample). -/
theorem C1_single_current_version (ctx : Ctx) (st : State) (h : Reach1 ctx st)
    (b : Str) (vids : List Str) (hb : lookupA st.versionIndex b = some vids) :
    st.index.countP
      (fun e => hasVs e.1 && decide (stripVs e.1 = b) && e.2.isCurrentVersion)
      = 1 := by
  have hw := wf_reach1 ctx st h
  have hc := hw.chains b vids hb
  have hlen : vids.length - 1 < vids.length := by
    cases vids with
    | nil => exact absurd rfl hc.vids_ne_nil
    | cons x xs => simp
  have hlen2 : vids.length - 1 + 1 = vids.length := by omega
  obtain ⟨mk, hk1, hk2, hk3, hk4⟩ := hc.recs (vids.length - 1) hlen
  rw [hlen2] at hk1 hk2 hk3 hk4
  have hup : st.index.countP
      (fun e => hasVs e.1 && decide (stripVs e.1 = b) && e.2.isCurrentVersion)
      ≤ 1 := by
    refine countP_le_one_of_same_key hw.keys_nodup _ (vid b vids.length) ?_
    intro e he hpe
    simp only [Bool.and_eq_true, decide_eq_true_eq] at hpe
    obtain ⟨⟨h1, h2⟩, h3⟩ := hpe
    obtain ⟨vids2, hv2, hm2⟩ := (hw.complete e he).2 h1
    rw [h2, hb] at hv2
    have hveq := Option.some.inj hv2
    rw [← hveq] at hm2
    obtain ⟨i, hi, hik⟩ := vid_mem_chain hc.vids_eq hm2
    obtain ⟨mi, hm1', hm2', hm3', hm4'⟩ := hc.recs i hi
    have hle := lookupA_of_mem_nodup hw.keys_nodup he
    rw [hik, hm1'] at hle
    have hei : mi = e.2 := Option.some.inj hle
    have hcuri : i + 1 = vids.length := hm4'.mp (by rw [hei]; exact h3)
    rw [hik, hcuri]
  have hlo : 0 < st.index.countP
      (fun e => hasVs e.1 && decide (stripVs e.1 = b) && e.2.isCurrentVersion) := by
    rw [List.countP_pos_iff]
    refine ⟨(vid b vids.length, mk), mem_of_lookupA hk1, ?_⟩
    simp only [Bool.and_eq_true, decide_eq_true_eq]
    exact ⟨⟨hasVs_vid b vids.length, stripVs_vid b vids.length⟩, hk4.mpr rfl⟩
  omega

/-- The C1 witness state: a single record stored once. -/
def stC1w : State := (storeOp ctxW (str ("c")) [] [] [] [] 1 initState).2

/-- Witness for C1 at a concrete input: after one store, the base has
exactly one current record. -/
theorem C1_single_current_version_witness :
    stC1w.index.countP
      (fun e => hasVs e.1 && decide (stripVs e.1 = str ("b16")) &&
        e.2.isCurrentVersion) = 1 :=
  C1_single_current_version ctxW stC1w
    (Reach1.store initState (str ("c")) [] [] [] [] 1 Reach1.empty (by decide))
    (str ("b16")) [vid (str ("b16")) 1] (by decide)

/-- The C1 counterexample state: two versions stored, then the current
version `b16-v2` deleted through `Delete`. -/
def stC1 : State :=
  (deleteOp (vid (str ("b16")) 2)
    (storeOp ctxW (str ("a")) [] [] [] [] 2
      (storeOp ctxW (str ("a")) [] [] [] [] 1 initState).2).2).2

/-- Counterexample to C1 as stated: after deleting the current version of a
base that still has an older superseded version, records of the base remain
in the store but none of them is current — `Delete` never promotes the
predecessor. -/
theorem C1_counterexample :
    stC1.index.countP
      (fun e => hasVs e.1 && decide (stripVs e.1 = str ("b16"))) ≠ 0 ∧
    stC1.index.countP
      (fun e => hasVs e.1 && decide (stripVs e.1 = str ("b16")) &&
        e.2.isCurrentVersion) = 0 := by
  decide

/-! ### C6 — `GetStats` and the double counting of `total_memories`. -/

/-- Under well-formedness, the no-`"-v"` entries of the primary index (the
base aliases) are in bijection with the version-index entries. -/
theorem wf_alias_count (st : State) (hw : WF st) :
    st.index.countP (fun e => !hasVs e.1) = st.versionIndex.length := by
  have hL : st.index.countP (fun e => !hasVs e.1)
      = ((st.index.filter (fun e => !hasVs e.1)).map Prod.fst).length := by
    rw [List.length_map, List.countP_eq_length_filter]
  rw [hL]
  have hsub : List.Sublist ((st.index.filter (fun e => !hasVs e.1)).map Prod.fst)
      (keysA st.index) :=
    List.Sublist.map Prod.fst (List.filter_sublist st.index)
  have hnd : ((st.index.filter (fun e => !hasVs e.1)).map Prod.fst).Nodup :=
    hw.keys_nodup.sublist hsub
  have hperm : List.Perm ((st.index.filter (fun e => !hasVs e.1)).map Prod.fst)
      (keysA st.versionIndex) := by
    rw [List.perm_ext_iff_of_nodup hnd hw.vkeys_nodup]
    intro k
    constructor
    · intro hk
      obtain ⟨e, he, hek⟩ := List.mem_map.mp hk
      have hef := List.mem_filter.mp he
      have hnv : hasVs e.1 = false := by
        have h2 := hef.2
        simp at h2
        exact h2
      have hs := (hw.complete e hef.1).1 hnv
      rw [← hek, mem_keysA_iff]
      exact hs
    · intro hk
      rw [mem_keysA_iff] at hk
      cases hv : lookupA st.versionIndex k with
      | none =>
        rw [hv] at hk
        exact Bool.noConfusion hk
      | some vids =>
        have hc := hw.chains k vids hv
        obtain ⟨ma, hma1, _⟩ := hc.alias_entry
        refine List.mem_map.mpr
          ⟨(k, ma), List.mem_filter.mpr ⟨mem_of_lookupA hma1, ?_⟩, rfl⟩
        simp [hc.base_no_vs]
  rw [hperm.length_eq]
  show (List.map Prod.fst st.versionIndex).length = _
  rw [List.length_map]

theorem length_countP_split (l : List (Str × Memory)) :
    l.length = l.countP (fun e => hasVs e.1) + l.countP (fun e => !hasVs e.1) := by
  induction l with
  | nil => rfl
  | cons e rest ih =>
    rw [List.length_cons, List.countP_cons, List.countP_cons, ih]
    cases he : hasVs e.1
    · simp [he]
      omega
    · simp [he]
      omega

/-- C6 (amended): `GetStats` reports `total_memories` as `len(s.index)`,
which counts every stored record once under its versioned id *plus* one
base-alias entry per base — records + bases, not the number of distinct
record files on disk; and the returned map carries no `unique_keywords` key
(its keys are exactly `total_memories`, `categories`, `total_access_count`,
`data_directory`, `total_size`, `max_storage_size`, `storage_used_pct`). -/
theorem C6_stats (ctx : Ctx) (st : State) (h : Reach1 ctx st) :
    (getStatsOp ctx st).totalMemories =
      st.index.countP (fun e => hasVs e.1) + st.versionIndex.length ∧
    str ("unique_keywords") ∉ getStatsKeys := by
  constructor
  · have hw := wf_reach1 ctx st h
    show st.index.length = _
    rw [length_countP_split st.index, wf_alias_count st hw]
  · decide

/-- The C6 fixture: a single record stored once (one file on disk, two
primary-index entries). -/
def stC6 : State := (storeOp ctxW (str ("a")) [] [] [] [] 1 initState).2

/-- Counterexample to C6 as stated: with one record stored once there is one
record file on disk, yet `total_memories` reports 2; and `unique_keywords`
is not among the stats keys. -/
theorem C6_counterexample :
    (getStatsOp ctxW stC6).totalMemories = 2 ∧ stC6.files.length = 1 ∧
    str ("unique_keywords") ∉ getStatsKeys := by
  decide

/-- Witness for C6 at a concrete input. -/
theorem C6_stats_witness :
    (getStatsOp ctxW stC6).totalMemories =
      stC6.index.countP (fun e => hasVs e.1) + stC6.versionIndex.length ∧
    str ("unique_keywords") ∉ getStatsKeys :=
  C6_stats ctxW stC6
    (Reach1.store initState (str ("a")) [] [] [] [] 1 Reach1.empty (by decide))

/-! ### C7 — bulk-delete closure (amended). -/

theorem countP_hasVs_eraseA_no_vs (l : List (Str × Memory)) (k : Str)
    (hk : hasVs k = false) :
    (eraseA l k).countP (fun e => hasVs e.1) = l.countP (fun e => hasVs e.1) := by
  induction l with
  | nil => rfl
  | cons e rest ih =>
    rw [eraseA_cons]
    by_cases he : e.1 = k
    · rw [if_pos he, List.countP_cons]
      have hev : hasVs e.1 = false := by
        rw [he]
        exact hk
      rw [hev]
      simp
    · rw [if_neg he, List.countP_cons, List.countP_cons, ih]

theorem countP_hasVs_eraseA_vs (l : List (Str × Memory)) (k : Str) {v : Memory}
    (hk : hasVs k = true) (hl : lookupA l k = some v) :
    l.countP (fun e => hasVs e.1) = (eraseA l k).countP (fun e => hasVs e.1) + 1 := by
  induction l with
  | nil => exact Option.noConfusion hl
  | cons e rest ih =>
    rw [eraseA_cons]
    rw [lookupA_cons] at hl
    by_cases he : e.1 = k
    · rw [if_pos he, List.countP_cons]
      have hev : hasVs e.1 = true := by
        rw [he]
        exact hk
      rw [hev]
      simp
    · rw [if_neg he] at hl
      rw [if_neg he, List.countP_cons, List.countP_cons, ih hl]
      omega

/-- One deletion-loop iteration only shrinks the index, keeps
`count + #versioned entries` constant, and removes the processed id. -/
theorem bulkDeleteOne_step {st : State} (hw : WF st) (cur : State)
    (hsub : List.Sublist cur.index st.index) (id : Str) (count : Nat) :
    List.Sublist (bulkDeleteOne cur id count).1.index cur.index ∧
    (bulkDeleteOne cur id count).2 +
      (bulkDeleteOne cur id count).1.index.countP (fun e => hasVs e.1)
      = count + cur.index.countP (fun e => hasVs e.1) ∧
    id ∉ keysA (bulkDeleteOne cur id count).1.index := by
  have hnod : (keysA cur.index).Nodup := hw.keys_nodup.sublist (hsub.map Prod.fst)
  cases hl : lookupA cur.index id with
  | none =>
    rw [bulkDeleteOne_eq_none cur id count hl]
    refine ⟨List.Sublist.refl _, rfl, ?_⟩
    rw [mem_keysA_iff, hl]
    simp
  | some m =>
    rw [bulkDeleteOne_eq_some cur id count m hl]
    have hmem : (id, m) ∈ st.index := hsub.subset (mem_of_lookupA hl)
    by_cases hali : ¬ hasVs id ∧ m.version > 0
    · rw [if_pos hali]
      have hkf : hasVs id = false := by
        cases hx : hasVs id with
        | false => rfl
        | true => exact absurd hx hali.1
      refine ⟨eraseA_sublist _ _, ?_, ?_⟩
      · show count + (eraseA cur.index id).countP (fun e => hasVs e.1) = _
        rw [countP_hasVs_eraseA_no_vs _ _ hkf]
      · show id ∉ keysA (eraseA cur.index id)
        rw [mem_keysA_iff, lookupA_eraseA_self _ _ hnod]
        simp
    · rw [if_neg hali]
      have hvs : hasVs id = true := by
        cases hx : hasVs id with
        | true => rfl
        | false =>
          exfalso
          have hlst : lookupA st.index id = some m :=
            lookupA_of_mem_nodup hw.keys_nodup hmem
          have hs := (hw.complete (id, m) hmem).1 hx
          cases hvv : lookupA st.versionIndex id with
          | none =>
            rw [hvv] at hs
            exact Bool.noConfusion hs
          | some vids =>
            have hav := wf_alias_value hw hvv hlst
            have hpos : 0 < vids.length := by
              cases hvc : vids with
              | nil => exact absurd hvc (hw.chains id vids hvv).vids_ne_nil
              | cons x xs => simp
            refine hali ⟨?_, ?_⟩
            · rw [hx]
              simp
            · rw [hav.2.1]
              exact hpos
      refine ⟨?_, ?_, ?_⟩
      · show List.Sublist (eraseA cur.index id) cur.index
        exact eraseA_sublist _ _
      · show count + 1 + (eraseA cur.index id).countP (fun e => hasVs e.1) = _
        rw [countP_hasVs_eraseA_vs cur.index id hvs hl]
        omega
      · show id ∉ keysA (eraseA cur.index id)
        rw [mem_keysA_iff, lookupA_eraseA_self _ _ hnod]
        simp

/-- The deletion loop of `BulkDelete`: the final index is a sub-collection of
the starting one, the count balances the versioned entries removed, and
every processed id is gone. -/
theorem bulk_fold_spec {st : State} (hw : WF st) (ids : List Str) :
    ∀ (p : State × Nat), List.Sublist p.1.index st.index →
      List.Sublist (ids.foldl (fun p id => bulkDeleteOne p.1 id p.2) p).1.index
        p.1.index ∧
      (ids.foldl (fun p id => bulkDeleteOne p.1 id p.2) p).2 +
        (ids.foldl (fun p id => bulkDeleteOne p.1 id p.2) p).1.index.countP
          (fun e => hasVs e.1)
        = p.2 + p.1.index.countP (fun e => hasVs e.1) ∧
      ∀ id ∈ ids,
        id ∉ keysA (ids.foldl (fun p id => bulkDeleteOne p.1 id p.2) p).1.index := by
  induction ids with
  | nil =>
    intro p hp
    refine ⟨List.Sublist.refl _, rfl, ?_⟩
    intro id hid
    exact absurd hid (List.not_mem_nil id)
  | cons id rest ih =>
    intro p hp
    rw [List.foldl_cons]
    obtain ⟨s1, s2, s3⟩ := bulkDeleteOne_step hw p.1 hp id p.2
    have hp1 : List.Sublist (bulkDeleteOne p.1 id p.2).1.index st.index := s1.trans hp
    obtain ⟨t1, t2, t3⟩ := ih (bulkDeleteOne p.1 id p.2) hp1
    refine ⟨t1.trans s1, ?_, ?_⟩
    · rw [t2, s2]
    · intro id2 hid2
      rcases List.mem_cons.mp hid2 with h1 | h1
      · subst h1
        intro hmem
        refine s3 ((t1.map Prod.fst).subset hmem)
      · exact t3 id2 h1

theorem bulkToDelete_fold_mono (st : State) (bases : List Str) :
    ∀ acc x, x ∈ acc → x ∈ bases.foldl (fun acc b =>
      let acc2 := acc ++ getDA st.versionIndex b []
      if (lookupA st.index b).isSome then
        if b ∈ acc2 then acc2 else acc2 ++ [b]
      else acc2) acc := by
  induction bases with
  | nil =>
    intro acc x hx
    exact hx
  | cons b rest ih =>
    intro acc x hx
    rw [List.foldl_cons]
    refine ih _ x ?_
    show x ∈ (if (lookupA st.index b).isSome then
        if b ∈ acc ++ getDA st.versionIndex b [] then acc ++ getDA st.versionIndex b []
        else (acc ++ getDA st.versionIndex b []) ++ [b]
      else acc ++ getDA st.versionIndex b [])
    have hx2 : x ∈ acc ++ getDA st.versionIndex b [] :=
      List.mem_append.mpr (Or.inl hx)
    by_cases hc1 : (lookupA st.index b).isSome = true
    · rw [if_pos hc1]
      by_cases hc2 : b ∈ acc ++ getDA st.versionIndex b []
      · rw [if_pos hc2]
        exact hx2
      · rw [if_neg hc2]
        exact List.mem_append.mpr (Or.inl hx2)
    · rw [if_neg hc1]
      exact hx2

/-- The `toDelete` list covers, for every matched base, all its version-index
ids and — when the base alias is present — the base key itself. -/
theorem bulkToDelete_covers (st : State) (bases : List Str) (b : Str)
    (hb : b ∈ bases) :
    (∀ x ∈ getDA st.versionIndex b [], x ∈ bulkToDelete st bases) ∧
    ((lookupA st.index b).isSome = true → b ∈ bulkToDelete st bases) := by
  have key : ∀ (bs : List Str), b ∈ bs → ∀ acc : List Str,
      (∀ x ∈ getDA st.versionIndex b [], x ∈ bs.foldl (fun acc b =>
        let acc2 := acc ++ getDA st.versionIndex b []
        if (lookupA st.index b).isSome then
          if b ∈ acc2 then acc2 else acc2 ++ [b]
        else acc2) acc) ∧
      ((lookupA st.index b).isSome = true → b ∈ bs.foldl (fun acc b =>
        let acc2 := acc ++ getDA st.versionIndex b []
        if (lookupA st.index b).isSome then
          if b ∈ acc2 then acc2 else acc2 ++ [b]
        else acc2) acc) := by
    intro bs
    induction bs with
    | nil =>
      intro hmem
      exact absurd hmem (List.not_mem_nil b)
    | cons b2 rest ih =>
      intro hmem acc
      rw [List.foldl_cons]
      rcases List.mem_cons.mp hmem with h1 | h1
      · subst h1
        constructor
        · intro x hx
          refine bulkToDelete_fold_mono st rest _ x ?_
          show x ∈ (if (lookupA st.index b).isSome then
              if b ∈ acc ++ getDA st.versionIndex b [] then
                acc ++ getDA st.versionIndex b []
              else (acc ++ getDA st.versionIndex b []) ++ [b]
            else acc ++ getDA st.versionIndex b [])
          have hx2 : x ∈ acc ++ getDA st.versionIndex b [] :=
            List.mem_append.mpr (Or.inr hx)
          by_cases hc1 : (lookupA st.index b).isSome = true
          · rw [if_pos hc1]
            by_cases hc2 : b ∈ acc ++ getDA st.versionIndex b []
            · rw [if_pos hc2]
              exact hx2
            · rw [if_neg hc2]
              exact List.mem_append.mpr (Or.inl hx2)
          · rw [if_neg hc1]
            exact hx2
        · intro hsome
          refine bulkToDelete_fold_mono st rest _ b ?_
          show b ∈ (if (lookupA st.index b).isSome then
              if b ∈ acc ++ getDA st.versionIndex b [] then
                acc ++ getDA st.versionIndex b []
              else (acc ++ getDA st.versionIndex b []) ++ [b]
            else acc ++ getDA st.versionIndex b [])
          rw [if_pos hsome]
          by_cases hc2 : b ∈ acc ++ getDA st.versionIndex b []
          · rw [if_pos hc2]
            exact hc2
          · rw [if_neg hc2]
            exact List.mem_append.mpr (Or.inr (List.mem_cons_self b []))
      · exact ih h1 _
  unfold bulkToDelete
  exact key bases hb []

theorem bulkDeleteOp_main (opts : BulkDeleteOptions) (st : State)
    (hconf : opts.confirm = true)
    (hfilt : ¬(opts.category = [] ∧ opts.tags = [] ∧ opts.beforeDate = none ∧
      opts.query = [])) :
    bulkDeleteOp opts st =
      (((bulkToDelete st (matchedBases opts st)).foldl
          (fun p id => bulkDeleteOne p.1 id p.2) (st, 0)).2,
       none,
       { ((bulkToDelete st (matchedBases opts st)).foldl
            (fun p id => bulkDeleteOne p.1 id p.2) (st, 0)).1 with
          versionIndex := (matchedBases opts st).foldl (fun vi b => eraseA vi b)
            ((bulkToDelete st (matchedBases opts st)).foldl
              (fun p id => bulkDeleteOne p.1 id p.2) (st, 0)).1.versionIndex }) := by
  unfold bulkDeleteOp
  rw [hconf]
  have hnc : ¬((!true) = true) := by simp
  rw [if_neg hnc, if_neg hfilt]

/-- C7 (amended): with confirmation and at least one predicate, the matching
loop of `BulkDelete` tests current records *and* superseded versioned records
(only non-current base-alias entries are skipped — see the counterexample);
for every matched base, no record of that base remains in the primary index
after the call, and the returned count is exactly the number of versioned
(record-file-backed) entries removed. -/
theorem C7_bulkDelete_closure (ctx : Ctx) (st : State) (h : Reach1 ctx st)
    (opts : BulkDeleteOptions) (hconf : opts.confirm = true)
    (hfilt : ¬(opts.category = [] ∧ opts.tags = [] ∧ opts.beforeDate = none ∧
      opts.query = []))
    (b : Str) (hb : b ∈ matchedBases opts st) :
    (∀ e ∈ (bulkDeleteOp opts st).2.2.index, stripVs e.1 ≠ b) ∧
    (bulkDeleteOp opts st).1 +
      (bulkDeleteOp opts st).2.2.index.countP (fun e => hasVs e.1)
      = st.index.countP (fun e => hasVs e.1) := by
  have hw := wf_reach1 ctx st h
  rw [bulkDeleteOp_main opts st hconf hfilt]
  obtain ⟨t1, t2, t3⟩ := bulk_fold_spec hw (bulkToDelete st (matchedBases opts st))
    (st, 0) (List.Sublist.refl _)
  constructor
  · intro e he hstrip
    have hein : e ∈ ((bulkToDelete st (matchedBases opts st)).foldl
        (fun p id => bulkDeleteOne p.1 id p.2) (st, 0)).1.index := he
    have hest : e ∈ st.index := t1.subset hein
    have hcov := bulkToDelete_covers st (matchedBases opts st) b hb
    have hkeymem : e.1 ∈ keysA ((bulkToDelete st (matchedBases opts st)).foldl
        (fun p id => bulkDeleteOne p.1 id p.2) (st, 0)).1.index :=
      List.mem_map_of_mem Prod.fst hein
    cases hvs : hasVs e.1 with
    | true =>
      obtain ⟨vids, hv2, hm2⟩ := (hw.complete e hest).2 hvs
      rw [hstrip] at hv2
      have hget : getDA st.versionIndex b [] = vids := by
        unfold getDA
        rw [hv2]
        rfl
      have hdel : e.1 ∈ bulkToDelete st (matchedBases opts st) := by
        refine hcov.1 e.1 ?_
        rw [hget]
        exact hm2
      exact t3 e.1 hdel hkeymem
    | false =>
      have heb : e.1 = b := by
        rw [← hstrip, stripVs_of_no_vs e.1 hvs]
      have hsome : (lookupA st.index e.1).isSome = true := by
        rw [← mem_keysA_iff]
        exact List.mem_map_of_mem Prod.fst hest
      have hdel : b ∈ bulkToDelete st (matchedBases opts st) :=
        hcov.2 (heb ▸ hsome)
      rw [← heb] at hdel
      exact t3 e.1 hdel hkeymem
  · show ((bulkToDelete st (matchedBases opts st)).foldl
        (fun p id => bulkDeleteOne p.1 id p.2) (st, 0)).2 +
      ((bulkToDelete st (matchedBases opts st)).foldl
        (fun p id => bulkDeleteOne p.1 id p.2) (st, 0)).1.index.countP
        (fun e => hasVs e.1) = st.index.countP (fun e => hasVs e.1)
    have t2b : ((bulkToDelete st (matchedBases opts st)).foldl
        (fun p id => bulkDeleteOne p.1 id p.2) (st, 0)).2 +
      ((bulkToDelete st (matchedBases opts st)).foldl
        (fun p id => bulkDeleteOne p.1 id p.2) (st, 0)).1.index.countP
        (fun e => hasVs e.1) = 0 + st.index.countP (fun e => hasVs e.1) := t2
    omega

/-- The C7 witness state: two versions of one base, both with category
`"x"`. -/
def stC7 : State :=
  (storeOp ctxW (str ("a")) [] (str ("x")) [] [] 2
    (storeOp ctxW (str ("a")) [] (str ("x")) [] [] 1 initState).2).2

/-- The C7 witness options: confirmed bulk delete by category `"x"`. -/
def optsC7 : BulkDeleteOptions :=
  { category := str ("x"), tags := [], beforeDate := none, query := [],
    confirm := true }

/-- Witness for C7 at a concrete input. -/
theorem C7_bulkDelete_closure_witness :
    (∀ e ∈ (bulkDeleteOp optsC7 stC7).2.2.index, stripVs e.1 ≠ str ("b16")) ∧
    (bulkDeleteOp optsC7 stC7).1 +
      (bulkDeleteOp optsC7 stC7).2.2.index.countP (fun e => hasVs e.1)
      = stC7.index.countP (fun e => hasVs e.1) :=
  C7_bulkDelete_closure ctxW stC7
    (Reach1.store _ (str ("a")) [] (str ("x")) [] [] 2
      (Reach1.store _ (str ("a")) [] (str ("x")) [] [] 1 Reach1.empty (by decide))
      (by decide))
    optsC7 rfl (by decide) (str ("b16")) (by decide)

/-- The C7 counterexample state: the superseded version 1 carries category
`"x"`, the current version 2 carries category `"y"`. -/
def stC7x : State :=
  (storeOp ctxW (str ("a")) [] (str ("y")) [] [] 2
    (storeOp ctxW (str ("a")) [] (str ("x")) [] [] 1 initState).2).2

/-- The C7 counterexample options: confirmed bulk delete by category
`"x"`. -/
def optsC7x : BulkDeleteOptions :=
  { category := str ("x"), tags := [], beforeDate := none, query := [],
    confirm := true }

/-- Counterexample to C7 as stated: no *current* record matches the
predicates, yet the call deletes both versions of the base (count 2) and
empties the primary index — because the matching loop also tests superseded
versioned records, not current versions only. -/
theorem C7_counterexample :
    (∀ e ∈ stC7x.index, e.2.isCurrentVersion = true →
      ¬(matchesOptions optsC7x e.2 = true)) ∧
    (bulkDeleteOp optsC7x stC7x).1 = 2 ∧
    (bulkDeleteOp optsC7x stC7x).2.2.index = [] := by
  decide

/-! ### C9 — the keyword extractor (`pkg/keywords/extractor.go`).

The tokenizer, stop-word set, frequency/TF phase, keyword-map phases,
sorting and truncation of `Extractor.Extract` are modelled directly; float64
scores are modelled as formal non-negative fractions compared by
cross-multiplication (exact arithmetic; the claims below do not depend on
float rounding).  The twelve `regexp` patterns are external library
calls: their `FindAllString` behaviour enters as function parameters
(`techMatch`, `projMatch`, `personFull`, `personEmailLocals`,
`personHandle`), except that the `@`-handle pattern
`@[a-zA-Z0-9][a-zA-Z0-9-]{0,38}` — on which the counterexample rests — is
also modelled concretely as the scanner `findHandles`.  ASCII fragments of
`unicode.IsLetter` / `IsDigit` are used, as in the rest of the
development. -/

/-- ASCII upper-casing of one character (`unicode.ToTitle` on ASCII). -/
def upperChar (c : Char) : Char :=
  match upperLowerTable.find? (fun p => p.2 = c) with
  | some p => p.1
  | none => c

/-- The word characters of `Extractor.tokenize`. -/
def isWordChar (c : Char) : Bool :=
  c.isAlpha || c.isDigit || c = '_' || c = '-' || c = '.'

/-- One step of the tokenizer loop: extend the current word or flush it. -/
def tokStep (acc : List Str × Str) (c : Char) : List Str × Str :=
  if isWordChar c then (acc.1, acc.2 ++ [c])
  else if acc.2 ≠ [] then (acc.1 ++ [acc.2], []) else acc

/-- Model of `Extractor.tokenize`. -/
def tokenize (text : Str) : List Str :=
  if (text.foldl tokStep ([], [])).2 ≠ [] then
    (text.foldl tokStep ([], [])).1 ++ [(text.foldl tokStep ([], [])).2]
  else (text.foldl tokStep ([], [])).1

/-- The stop-word set of `makeStopWords`, transcribed verbatim. -/
def stopWords : List Str :=
  [str ("a"), str ("an"), str ("the"),
   str ("i"), str ("me"), str ("my"), str ("myself"), str ("we"), str ("our"),
   str ("ours"), str ("ourselves"),
   str ("you"), str ("your"), str ("yours"), str ("yourself"), str ("yourselves"),
   str ("he"), str ("him"), str ("his"), str ("himself"), str ("she"), str ("her"),
   str ("hers"), str ("herself"),
   str ("it"), str ("its"), str ("itself"), str ("they"), str ("them"),
   str ("their"), str ("theirs"), str ("themselves"),
   str ("what"), str ("which"), str ("who"), str ("whom"), str ("this"),
   str ("that"), str ("these"), str ("those"),
   str ("at"), str ("by"), str ("for"), str ("from"), str ("in"), str ("of"),
   str ("on"), str ("to"), str ("with"),
   str ("about"), str ("against"), str ("between"), str ("into"), str ("through"),
   str ("during"),
   str ("before"), str ("after"), str ("above"), str ("below"), str ("up"),
   str ("down"), str ("out"), str ("off"),
   str ("over"), str ("under"), str ("again"), str ("further"), str ("then"),
   str ("once"),
   str ("and"), str ("but"), str ("or"), str ("nor"), str ("so"), str ("yet"),
   str ("both"), str ("either"), str ("neither"),
   str ("am"), str ("is"), str ("are"), str ("was"), str ("were"), str ("be"),
   str ("been"), str ("being"),
   str ("have"), str ("has"), str ("had"), str ("having"), str ("do"),
   str ("does"), str ("did"), str ("doing"),
   str ("will"), str ("would"), str ("shall"), str ("should"), str ("may"),
   str ("might"), str ("must"),
   str ("can"), str ("could"), str ("ought"),
   str ("get"), str ("got"), str ("gets"), str ("getting"), str ("make"),
   str ("made"), str ("making"),
   str ("go"), str ("goes"), str ("went"), str ("going"), str ("take"),
   str ("takes"), str ("took"), str ("taking"),
   str ("come"), str ("comes"), str ("came"), str ("coming"), str ("want"),
   str ("wants"), str ("wanted"),
   str ("use"), str ("uses"), str ("used"), str ("using"), str ("find"),
   str ("finds"), str ("found"),
   str ("give"), str ("gives"), str ("gave"), str ("giving"), str ("tell"),
   str ("tells"), str ("told"),
   str ("work"), str ("works"), str ("worked"), str ("working"), str ("call"),
   str ("calls"), str ("called"),
   str ("try"), str ("tries"), str ("tried"), str ("trying"), str ("need"),
   str ("needs"), str ("needed"),
   str ("feel"), str ("feels"), str ("felt"), str ("feeling"), str ("become"),
   str ("becomes"), str ("became"),
   str ("leave"), str ("leaves"), str ("left"), str ("leaving"), str ("put"),
   str ("puts"), str ("putting"),
   str ("mean"), str ("means"), str ("meant"), str ("meaning"), str ("keep"),
   str ("keeps"), str ("kept"),
   str ("let"), str ("lets"), str ("letting"), str ("begin"), str ("begins"),
   str ("began"), str ("beginning"),
   str ("seem"), str ("seems"), str ("seemed"), str ("seeming"), str ("help"),
   str ("helps"), str ("helped"),
   str ("show"), str ("shows"), str ("showed"), str ("showing"), str ("hear"),
   str ("hears"), str ("heard"),
   str ("play"), str ("plays"), str ("played"), str ("playing"), str ("run"),
   str ("runs"), str ("ran"),
   str ("move"), str ("moves"), str ("moved"), str ("moving"), str ("live"),
   str ("lives"), str ("lived"),
   str ("believe"), str ("believes"), str ("believed"), str ("believing"),
   str ("here"), str ("there"), str ("when"), str ("where"), str ("why"),
   str ("how"), str ("all"), str ("many"),
   str ("some"), str ("few"), str ("more"), str ("most"), str ("other"),
   str ("such"), str ("no"), str ("not"),
   str ("only"), str ("own"), str ("same"), str ("than"), str ("too"),
   str ("very"), str ("just"), str ("now"),
   str ("also"), str ("well"), str ("even"), str ("back"), str ("still"),
   str ("way"), str ("because"),
   str ("however"), str ("around"), str ("yet"), str ("since"), str ("while"),
   str ("whether")]

/-- Model of `Extractor.isStopWord`. -/
def isStopWord (w : Str) : Bool := decide (toLowerStr w ∈ stopWords)

/-- Model of `Extractor.isMeaningfulConcept`: length at least 4 and at least
one vowel. -/
def isMeaningfulConcept (word : Str) : Bool :=
  if word.length < 4 then false
  else word.any (fun c => decide (c ∈ str ("aeiouAEIOU")))

/-- The common-word list of `Extractor.isCommonWord`. -/
def commonWords : List Str :=
  [str ("the"), str ("and"), str ("for"), str ("with"), str ("from"),
   str ("this"), str ("that"), str ("what"),
   str ("when"), str ("where"), str ("which"), str ("while"), str ("about"),
   str ("after"), str ("before"),
   str ("between"), str ("during"), str ("under"), str ("over"),
   str ("through"), str ("into")]

/-- Model of `Extractor.isCommonWord`. -/
def isCommonWord (w : Str) : Bool := decide (toLowerStr w ∈ commonWords)

/-- One step of the word-frequency loop of `Extract`: words passing the
stop-word and length filters are counted under their lower-cased form. -/
def freqStep (acc : List (Str × Nat) × Nat) (w : Str) : List (Str × Nat) × Nat :=
  if !isStopWord w && decide (2 < w.length) then
    (insertA acc.1 (toLowerStr w) (getDA acc.1 (toLowerStr w) 0 + 1), acc.2 + 1)
  else acc

/-- The word-frequency map and total word count of `Extract`. -/
def freqPhase (words : List Str) : List (Str × Nat) × Nat :=
  words.foldl freqStep ([], 0)

/-- A non-negative fraction, the model of a float64 score. -/
structure Score where
  num : Nat
  den : Nat
deriving DecidableEq, Repr

/-- Strict comparison of two score fractions, by cross-multiplication. -/
def Score.ltB (a b : Score) : Bool := decide (a.num * b.den < b.num * a.den)

/-- Scaling a score fraction by `p / q`. -/
def Score.scale (a : Score) (p q : Nat) : Score :=
  { num := p * a.num, den := q * a.den }

/-- The TF score `float64(freq) / float64(totalWords)`. -/
def tfS (wf : List (Str × Nat)) (total : Nat) (w : Str) : Score :=
  { num := getDA wf w 0, den := total }

/-- An extracted keyword (`keywords.Keyword`). -/
structure Keyword where
  term : Str
  score : Score
  type : Str
deriving DecidableEq, Repr

/-- The boosted technical score: `tf * 2.0`, or the base score `0.5` when
that is zero. -/
def techScore (wf : List (Str × Nat)) (total : Nat) (name : Str) : Score :=
  if (tfS wf total (toLowerStr name)).num = 0 then { num := 1, den := 2 }
  else (tfS wf total (toLowerStr name)).scale 2 1

/-- The boosted project score: `tf * 1.8`, or the base score `0.4` when that
is zero. -/
def projScore (wf : List (Str × Nat)) (total : Nat) (name : Str) : Score :=
  if (tfS wf total (toLowerStr name)).num = 0 then { num := 2, den := 5 }
  else (tfS wf total (toLowerStr name)).scale 9 5

/-- The boosted person score: `tf * 1.5`, or the base score `0.3` when that
is zero. -/
def personScore (wf : List (Str × Nat)) (total : Nat) (name : Str) : Score :=
  if (tfS wf total (toLowerStr name)).num = 0 then { num := 3, den := 10 }
  else (tfS wf total (toLowerStr name)).scale 3 2

/-- One technical-term insertion (unconditional overwrite, as in the
source). -/
def techStep (wf : List (Str × Nat)) (total : Nat) (km : List (Str × Keyword))
    (term : Str) : List (Str × Keyword) :=
  insertA km (toLowerStr term)
    { term := term, score := techScore wf total term, type := str ("technical") }

/-- One project-name insertion: only when absent or with a larger score. -/
def projStep (wf : List (Str × Nat)) (total : Nat) (km : List (Str × Keyword))
    (name : Str) : List (Str × Keyword) :=
  if (match lookupA km (toLowerStr name) with
      | none => true
      | some existing => Score.ltB existing.score (projScore wf total name)) then
    insertA km (toLowerStr name)
      { term := name, score := projScore wf total name, type := str ("project") }
  else km

/-- One person-name insertion: only when absent or with a larger score. -/
def personStep (wf : List (Str × Nat)) (total : Nat) (km : List (Str × Keyword))
    (name : Str) : List (Str × Keyword) :=
  if (match lookupA km (toLowerStr name) with
      | none => true
      | some existing => Score.ltB existing.score (personScore wf total name)) then
    insertA km (toLowerStr name)
      { term := name, score := personScore wf total name, type := str ("person") }
  else km

/-- One concept insertion: absent keys of positive-enough TF passing
`isMeaningfulConcept`. -/
def conceptStep (wf : List (Str × Nat)) (total : Nat) (km : List (Str × Keyword))
    (e : Str × Nat) : List (Str × Keyword) :=
  if (lookupA km e.1).isNone &&
      decide ((tfS wf total e.1).den < 100 * (tfS wf total e.1).num) &&
      isMeaningfulConcept e.1 then
    insertA km e.1
      { term := e.1, score := tfS wf total e.1, type := str ("concept") }
  else km

/-- Model of `Extractor.extractTechnicalTerms`: the technical patterns run
over the lower-cased text; accumulating into a set is first-occurrence
deduplication. -/
def extractTechnicalTerms (techMatch : Str → List Str) (text : Str) : List Str :=
  dedupStr (techMatch (toLowerStr text))

/-- Model of `Extractor.extractProjectNames`: pattern matches filtered by
`isCommonWord` and length `> 3`. -/
def extractProjectNames (projMatch : Str → List Str) (text : Str) : List Str :=
  dedupStr ((projMatch text).filter
    (fun m => !isCommonWord m && decide (3 < m.length)))

/-- `strings.ReplaceAll` of `"."`, `"_"` and `"-"` by spaces (the three
targets are disjoint, so one pass equals the source's three). -/
def spaceOut (s : Str) : Str :=
  s.map (fun c => if c = '.' ∨ c = '_' ∨ c = '-' then ' ' else c)

/-- A separator for `strings.Title`: anything but alphanumerics and
underscore. -/
def isSeparatorChar (c : Char) : Bool := !(c.isAlpha || c.isDigit || c = '_')

def titleMap : Bool → Str → Str
  | _, [] => []
  | prevSep, c :: rest =>
    (if prevSep then upperChar c else c) :: titleMap (isSeparatorChar c) rest

/-- Model of `strings.Title` (word-initial letters upper-cased). -/
def titleStr (s : Str) : Str := titleMap true s

/-- Model of `Extractor.extractPersonNames`: full-name matches verbatim,
email local parts with separators spaced out and title-cased, and
`@`-handle matches verbatim. -/
def extractPersonNames (personFull personEmailLocals personHandle : Str → List Str)
    (text : Str) : List Str :=
  dedupStr (personFull text ++
    (personEmailLocals text).map (fun loc => titleStr (spaceOut loc)) ++
    personHandle text)

/-- The characters admitted after the first by the `@`-handle pattern. -/
def isHandleChar (c : Char) : Bool := c.isAlpha || c.isDigit || c = '-'

/-- The greedy `[a-zA-Z0-9-]{0,38}` tail (at most `fuel` characters). -/
def handleRun (fuel : Nat) (s : Str) : Str :=
  match fuel, s with
  | 0, _ => []
  | _ + 1, [] => []
  | f + 1, c :: rest => if isHandleChar c then c :: handleRun f rest else []

def findHandlesAux : Nat → Str → List Str
  | 0, _ => []
  | _ + 1, [] => []
  | fuel + 1, c :: rest =>
    if c = '@' then
      match rest with
      | [] => []
      | c2 :: _ =>
        if c2.isAlpha || c2.isDigit then
          ('@' :: handleRun 39 rest) ::
            findHandlesAux fuel (rest.drop (handleRun 39 rest).length)
        else findHandlesAux fuel rest
    else findHandlesAux fuel rest

/-- Concrete model of `FindAllString` for the third person pattern
`@[a-zA-Z0-9][a-zA-Z0-9-]{0,38}`: left-to-right greedy non-overlapping
matches of an `@` followed by an alphanumeric and at most 38 further
alphanumerics or dashes. -/
def findHandles (s : Str) : List Str := findHandlesAux s.length s

/-- Model of `Extractor.Extract`.  `maxKeywords = 0` stands for the
non-positive inputs that the source resets to 10.  The four phases populate
the keyword map in source order (technical, project, person, concept); the
map's values are then sorted by descending score and truncated. -/
def extractOp (techMatch projMatch personFull personEmailLocals
    personHandle : Str → List Str) (text : Str) (maxKeywords : Nat) :
    List Keyword :=
  let maxK := if maxKeywords = 0 then 10 else maxKeywords
  let wfT := freqPhase (tokenize text)
  let km :=
    wfT.1.foldl (conceptStep wfT.1 wfT.2)
      ((extractPersonNames personFull personEmailLocals personHandle text).foldl
        (personStep wfT.1 wfT.2)
        ((extractProjectNames projMatch text).foldl (projStep wfT.1 wfT.2)
          ((extractTechnicalTerms techMatch text).foldl (techStep wfT.1 wfT.2) [])))
  let sorted := sortByB (fun a b => Score.ltB b.score a.score) (km.map Prod.snd)
  if sorted.length > maxK then sorted.take maxK else sorted

theorem lowerChar_idem (c : Char) : lowerChar (lowerChar c) = lowerChar c := by
  cases hfind : upperLowerTable.find? (fun p => p.1 = c) with
  | some p =>
    have hmem := List.mem_of_find?_eq_some hfind
    have hc : lowerChar c = p.2 := by
      unfold lowerChar
      rw [hfind]
    rw [hc]
    have hall : ∀ q ∈ upperLowerTable, lowerChar q.2 = q.2 := by decide
    exact hall p hmem
  | none =>
    have hc : lowerChar c = c := by
      unfold lowerChar
      rw [hfind]
    rw [hc, hc]

theorem toLowerStr_idem (s : Str) : toLowerStr (toLowerStr s) = toLowerStr s := by
  unfold toLowerStr
  rw [List.map_map]
  refine List.map_congr_left ?_
  intro a _
  exact lowerChar_idem a

theorem isStopWord_toLowerStr (w : Str) :
    isStopWord (toLowerStr w) = isStopWord w := by
  unfold isStopWord
  rw [toLowerStr_idem]

theorem mem_keysA_insertA {α : Type} {l : List (Str × α)} {k k2 : Str} {v : α}
    (h : k ∈ keysA (insertA l k2 v)) : k = k2 ∨ k ∈ keysA l := by
  obtain ⟨e, he, hek⟩ := List.mem_map.mp h
  rcases mem_insertA he with h1 | h1
  · rw [h1] at hek
    exact Or.inl hek.symm
  · exact Or.inr (hek ▸ List.mem_map_of_mem Prod.fst h1)

theorem foldl_preserve_mem {α β : Type} (P : α → Prop) (f : α → β → α) :
    ∀ (l : List β), (∀ a b, b ∈ l → P a → P (f a b)) → ∀ a, P a → P (l.foldl f a) := by
  intro l
  induction l with
  | nil =>
    intro _ a ha
    exact ha
  | cons b rest ih =>
    intro hf a ha
    rw [List.foldl_cons]
    exact ih (fun a2 b2 hb2 ha2 => hf a2 b2 (List.mem_cons_of_mem b hb2) ha2) _
      (hf a b (List.mem_cons_self b rest) ha)

/-- Keys of the word-frequency map pass the stop-word and length filters. -/
theorem freqPhase_keys (words : List Str) :
    ∀ k ∈ keysA (freqPhase words).1, isStopWord k = false ∧ 2 < k.length := by
  unfold freqPhase
  refine foldl_preserve_mem
    (fun acc : List (Str × Nat) × Nat =>
      ∀ k ∈ keysA acc.1, isStopWord k = false ∧ 2 < k.length)
    freqStep words ?_ ([], 0) ?_
  · intro acc w _ hP k hk
    unfold freqStep at hk
    by_cases hc : (!isStopWord w && decide (2 < w.length)) = true
    · rw [if_pos hc] at hk
      simp only [Bool.and_eq_true, Bool.not_eq_eq_eq_not, Bool.not_true,
        decide_eq_true_eq] at hc
      rcases mem_keysA_insertA hk with h1 | h1
      · subst h1
        constructor
        · rw [isStopWord_toLowerStr]
          exact hc.1
        · show 2 < (List.map lowerChar w).length
          rw [List.length_map]
          exact hc.2
      · exact hP k h1
    · rw [if_neg hc] at hk
      exact hP k hk
  · intro k hk
    exact absurd hk (List.not_mem_nil k)

theorem projStep_mem {wf : List (Str × Nat)} {total : Nat}
    {km : List (Str × Keyword)} {name : Str} {e : Str × Keyword}
    (he : e ∈ projStep wf total km name) :
    e = (toLowerStr name,
      { term := name, score := projScore wf total name, type := str ("project") })
      ∨ e ∈ km := by
  unfold projStep at he
  by_cases hc : (match lookupA km (toLowerStr name) with
      | none => true
      | some existing => Score.ltB existing.score (projScore wf total name)) = true
  · rw [if_pos hc] at he
    exact mem_insertA he
  · rw [if_neg hc] at he
    exact Or.inr he

theorem personStep_mem {wf : List (Str × Nat)} {total : Nat}
    {km : List (Str × Keyword)} {name : Str} {e : Str × Keyword}
    (he : e ∈ personStep wf total km name) :
    e = (toLowerStr name,
      { term := name, score := personScore wf total name, type := str ("person") })
      ∨ e ∈ km := by
  unfold personStep at he
  by_cases hc : (match lookupA km (toLowerStr name) with
      | none => true
      | some existing => Score.ltB existing.score (personScore wf total name)) = true
  · rw [if_pos hc] at he
    exact mem_insertA he
  · rw [if_neg hc] at he
    exact Or.inr he

theorem conceptStep_mem {wf : List (Str × Nat)} {total : Nat}
    {km : List (Str × Keyword)} {b : Str × Nat} {e : Str × Keyword}
    (he : e ∈ conceptStep wf total km b) :
    (e = (b.1, { term := b.1, score := tfS wf total b.1, type := str ("concept") })
      ∧ isMeaningfulConcept b.1 = true) ∨ e ∈ km := by
  unfold conceptStep at he
  by_cases hc : ((lookupA km b.1).isNone &&
      decide ((tfS wf total b.1).den < 100 * (tfS wf total b.1).num) &&
      isMeaningfulConcept b.1) = true
  · rw [if_pos hc] at he
    rcases mem_insertA he with h1 | h1
    · refine Or.inl ⟨h1, ?_⟩
      simp only [Bool.and_eq_true] at hc
      exact hc.2
    · exact Or.inr h1
  · rw [if_neg hc] at he
    exact Or.inr he

theorem isMeaningfulConcept_length {w : Str} (h : isMeaningfulConcept w = true) :
    4 ≤ w.length := by
  unfold isMeaningfulConcept at h
  by_cases hl : w.length < 4
  · rw [if_pos hl] at h
    exact Bool.noConfusion h
  · omega

/-- Concept-typed entries of the keyword map carry terms that passed the
token-level filters: the pattern phases only insert the other three types,
and the concept phase inserts word-frequency keys passing
`isMeaningfulConcept`. -/
theorem km_concept_terms (wf : List (Str × Nat)) (total : Nat)
    (hwf : ∀ k ∈ keysA wf, isStopWord k = false ∧ 2 < k.length)
    (terms names1 names2 : List Str) :
    ∀ e ∈ wf.foldl (conceptStep wf total)
        (names2.foldl (personStep wf total)
          (names1.foldl (projStep wf total)
            (terms.foldl (techStep wf total) ([] : List (Str × Keyword))))),
      e.2.type = str ("concept") →
        e.2.term ≠ [] ∧ 3 ≤ e.2.term.length ∧ isStopWord e.2.term = false := by
  have P0 : ∀ e ∈ terms.foldl (techStep wf total) ([] : List (Str × Keyword)),
      e.2.type = str ("concept") →
        e.2.term ≠ [] ∧ 3 ≤ e.2.term.length ∧ isStopWord e.2.term = false := by
    refine foldl_preserve_mem (fun km : List (Str × Keyword) => ∀ e ∈ km,
      e.2.type = str ("concept") →
        e.2.term ≠ [] ∧ 3 ≤ e.2.term.length ∧ isStopWord e.2.term = false) (techStep wf total) terms ?_ [] ?_
    · intro km t _ hP e he hty
      unfold techStep at he
      rcases mem_insertA he with h1 | h1
      · rw [h1] at hty
        exact absurd (show str ("technical") = str ("concept") from hty) (by decide)
      · exact hP e h1 hty
    · intro e he
      exact absurd he (List.not_mem_nil e)
  have P1 : ∀ e ∈ names1.foldl (projStep wf total)
        (terms.foldl (techStep wf total) ([] : List (Str × Keyword))),
      e.2.type = str ("concept") →
        e.2.term ≠ [] ∧ 3 ≤ e.2.term.length ∧ isStopWord e.2.term = false := by
    refine foldl_preserve_mem (fun km : List (Str × Keyword) => ∀ e ∈ km,
      e.2.type = str ("concept") →
        e.2.term ≠ [] ∧ 3 ≤ e.2.term.length ∧ isStopWord e.2.term = false) (projStep wf total) names1 ?_ _ P0
    intro km t _ hP e he hty
    rcases projStep_mem he with h1 | h1
    · rw [h1] at hty
      exact absurd (show str ("project") = str ("concept") from hty) (by decide)
    · exact hP e h1 hty
  have P2 : ∀ e ∈ names2.foldl (personStep wf total)
        (names1.foldl (projStep wf total)
          (terms.foldl (techStep wf total) ([] : List (Str × Keyword)))),
      e.2.type = str ("concept") →
        e.2.term ≠ [] ∧ 3 ≤ e.2.term.length ∧ isStopWord e.2.term = false := by
    refine foldl_preserve_mem (fun km : List (Str × Keyword) => ∀ e ∈ km,
      e.2.type = str ("concept") →
        e.2.term ≠ [] ∧ 3 ≤ e.2.term.length ∧ isStopWord e.2.term = false) (personStep wf total) names2 ?_ _ P1
    intro km t _ hP e he hty
    rcases personStep_mem he with h1 | h1
    · rw [h1] at hty
      exact absurd (show str ("person") = str ("concept") from hty) (by decide)
    · exact hP e h1 hty
  refine foldl_preserve_mem (fun km : List (Str × Keyword) => ∀ e ∈ km,
      e.2.type = str ("concept") →
        e.2.term ≠ [] ∧ 3 ≤ e.2.term.length ∧ isStopWord e.2.term = false) (conceptStep wf total) wf ?_ _ P2
  intro km b hb hP e he hty
  rcases conceptStep_mem he with ⟨h1, hmc⟩ | h1
  · have hlen4 := isMeaningfulConcept_length hmc
    have hkey : b.1 ∈ keysA wf := List.mem_map_of_mem Prod.fst hb
    have hsw := (hwf b.1 hkey).1
    rw [h1]
    refine ⟨?_, ?_, ?_⟩
    · show b.1 ≠ []
      intro hnil
      rw [hnil] at hlen4
      simp at hlen4
    · show 3 ≤ b.1.length
      omega
    · show isStopWord b.1 = false
      exact hsw
  · exact hP e h1 hty

theorem mem_of_truncate_sort {α : Type} (le : α → α → Bool) (l : List α) (n : Nat)
    (kw : α)
    (h : kw ∈ (if (sortByB le l).length > n then (sortByB le l).take n
      else sortByB le l)) : kw ∈ l := by
  by_cases hc : (sortByB le l).length > n
  · rw [if_pos hc] at h
    exact (mem_sortByB le kw l).mp (List.mem_of_mem_take h)
  · rw [if_neg hc] at h
    exact (mem_sortByB le kw l).mp h

/-- C9 (amended; the concept class): every keyword of type `"concept"`
returned by `Extract` is non-empty, has length at least 3 (in fact at least
4), and is not a stop word — for every input text, every requested maximum
and every behaviour of the twelve regex patterns.  The pattern classes
bypass these token-level filters, and the property fails for them: see the
counterexample. -/
theorem C9_extract_filters (techMatch projMatch personFull personEmailLocals
    personHandle : Str → List Str) (text : Str) (maxKeywords : Nat)
    (kw : Keyword)
    (hkw : kw ∈ extractOp techMatch projMatch personFull personEmailLocals
      personHandle text maxKeywords)
    (hty : kw.type = str ("concept")) :
    kw.term ≠ [] ∧ 3 ≤ kw.term.length ∧ isStopWord kw.term = false := by
  simp only [extractOp] at hkw
  have hkm := mem_of_truncate_sort _ _ _ _ hkw
  obtain ⟨e, he, hekw⟩ := List.mem_map.mp hkm
  have hprops := km_concept_terms (freqPhase (tokenize text)).1
    (freqPhase (tokenize text)).2 (freqPhase_keys (tokenize text)) _ _ _ e he
    (by rw [hekw]; exact hty)
  rw [← hekw]
  exact hprops

/-- The C9 witness keyword: the concept extracted from the one-word text
`"hello"` (frequency 1 of 1). -/
def kwC9 : Keyword :=
  { term := str ("hello"), score := { num := 1, den := 1 }, type := str ("concept") }

/-- Witness for C9 at a concrete input. -/
theorem C9_extract_filters_witness :
    kwC9.term ≠ [] ∧ 3 ≤ kwC9.term.length ∧ isStopWord kwC9.term = false :=
  C9_extract_filters (fun _ => []) (fun _ => []) (fun _ => []) (fun _ => [])
    (fun _ => []) (str ("hello")) 0 kwC9 (by decide) rfl

/-- Counterexample to C9 as stated: on the text `"ping @a"` the third person
pattern `@[a-zA-Z0-9][a-zA-Z0-9-]{0,38}` (modelled concretely by
`findHandles`; the other eleven patterns produce no match on this text)
matches `"@a"`, and the extractor returns it as a person keyword of length
2 — pattern-class keywords bypass the token-level length filter. -/
theorem C9_counterexample :
    ∃ kw ∈ extractOp (fun _ => []) (fun _ => []) (fun _ => [])
      (fun _ => []) findHandles (str ("ping @a")) 0,
      kw.term = str ("@a") ∧ kw.type = str ("person") ∧ kw.term.length < 3 := by
  decide

end MemModel
